import Mathlib

/-!
# Verification of the LendingClub client (jgillick/LendingClub)

A shallow embedding, in Lean 4, of the session/order core of the
`lendingclub` python package:

* `Order` (`lendingclub/__init__.py`, class `Order`): the loan-id →
  dollar-amount mapping, `add`, `remove`, and the `execute` state machine.
* `Session` (`lendingclub/session.py`): the reauthenticate-on-timeout check
  (`__continue_session`) and `request`'s handling of `last_request_time`.
* `LendingClub.assign_to_portfolio` (`lendingclub/__init__.py`).
* `LendingClub.build_portfolio`'s allocation-option selection loop.
* `Filter` (`lendingclub/filters.py`): normalization of the configuration,
  `validate` / `validate_one`, and the regex cleanup pass of `search_string`.

Remote behaviour (HTTP responses, scraped HTML) is passed in explicitly as
values of small "response" structures; Python dictionaries with fixed key
sets become structures; the loan mapping becomes an association list with
distinct keys.  Python machine arithmetic on the values involved here is
exact, so amounts are `Int` and percentages are `ℚ`.
-/

namespace LendingClub

/-! ## The `Order` loan mapping (`lendingclub/__init__.py`, class `Order`)

`Order.loans` is a python dict mapping loan ids to dollar amounts; a dict
never holds two bindings for the same key, which we embed as an association
list whose keys are distinct (`loansWF`). -/

/-- The loan mapping of an order: an association list loan id → amount,
embedding the python dict `Order.loans`. -/
abbrev LoanMap := List (Nat × Int)

/-- Distinctness of the keys of a `LoanMap`: the invariant every python
dict satisfies by construction. -/
def loansWF (m : LoanMap) : Prop := (m.map Prod.fst).Nodup

instance : DecidablePred loansWF := fun m =>
  inferInstanceAs (Decidable (m.map Prod.fst).Nodup)

/-- `m[k] = v` for a python dict: write through an association list,
replacing the binding for `k` if present, appending it otherwise. -/
def setLoan : LoanMap → Nat → Int → LoanMap
  | [], k, v => [(k, v)]
  | (k', v') :: rest, k, v =>
    if k' = k then (k, v) :: rest else (k', v') :: setLoan rest k v

/-- `del m[k]` guarded by `k in m`: erase the binding for `k` if present
(`Order.remove`, `lendingclub/__init__.py` lines 996-1006). -/
def delLoan : LoanMap → Nat → LoanMap
  | [], _ => []
  | (k', v') :: rest, k => if k' = k then rest else (k', v') :: delLoan rest k

/-- `k in m` / dict lookup. -/
def lookupLoan : LoanMap → Nat → Option Int
  | [], _ => none
  | (k', v') :: rest, k => if k' = k then some v' else lookupLoan rest k

/-! ## The `Session` reauthentication logic (`lendingclub/session.py`)

`Session.request` first runs `__continue_session` (lines 73-85): when the
absolute difference between the current time and `last_request_time` is at
least `session_timeout * 60` seconds it calls `authenticate()` with no
arguments.  `authenticate` (lines 112-216) keeps the stored credentials
when called with no arguments, records the current time as
`last_request_time` (line 169) and then performs the login POST through
`request` itself — which runs `__continue_session` again.  Back in
`request`, the HTTP call is issued inside a `try` block; only when it
returns without raising is `last_request_time` updated (line 281): a
transport exception re-raises as `NetworkError` and skips the update.

Times are seconds as integers; the login-response parsing of
`authenticate` (redirect/error-block inspection) is assumed not to raise,
which is irrelevant to the reauthentication trigger and to
`last_request_time` at the outer request.  The value `none` models
non-termination of the mutual recursion within the given fuel. -/

/-- The `Session` fields involved: stored credentials, the time of the
last HTTP request and the session timeout in minutes (class default 10). -/
structure SessState where
  email : Option String
  passwd : Option String
  lastRequestTime : Int
  sessionTimeout : Int
deriving Repr, DecidableEq

mutual

/-- `Session.request` (lines 235-288): run `__continue_session`, then
issue the HTTP call (`httpOk` says whether the transport succeeds).
Returns the list of credential pairs used by the `authenticate()` calls
this request triggered, the final session state, and whether the call
returned normally (`true`) or raised (`false`). -/
def sessionRequest : Nat → Int → SessState → Bool →
    Option (List (Option String × Option String) × SessState × Bool)
  | 0, _, _, _ => none
  | fuel + 1, now, st, httpOk =>
    -- __continue_session: reauthenticate when the elapsed time is ≥ timeout
    if |now - st.lastRequestTime| ≥ st.sessionTimeout * 60 then
      match sessionAuthenticate fuel now st httpOk with
      | none => none
      | some (tr, st1, true) =>
        -- the HTTP call; `last_request_time` is updated only on success
        if httpOk then some (tr, { st1 with lastRequestTime := now }, true)
        else some (tr, st1, false)
      | some (tr, st1, false) => some (tr, st1, false)
    else
      if httpOk then some ([], { st with lastRequestTime := now }, true)
      else some ([], st, false)

/-- `Session.authenticate()` with no arguments (lines 112-216): uses the
stored credentials, records `now` as `last_request_time`, then performs
the login POST through `Session.post` → `Session.request`. -/
def sessionAuthenticate : Nat → Int → SessState → Bool →
    Option (List (Option String × Option String) × SessState × Bool)
  | 0, _, _, _ => none
  | fuel + 1, now, st, httpOk =>
    match sessionRequest fuel now { st with lastRequestTime := now } httpOk with
    | none => none
    | some (tr, st2, ok) => some ((st.email, st.passwd) :: tr, st2, ok)

end

/-- The `Order` state: the pending loan mapping and the order id, which is
`0` until the order has been placed (`Order.__init__`). -/
structure Order where
  loans : LoanMap
  orderId : Nat
deriving Repr, DecidableEq

/-- Errors raised by the order/session layer.  `assertionError` embeds a
failing python `assert`; `lendingClubError` embeds `LendingClubError`. -/
inductive LCError where
  | assertionError (msg : String)
  | lendingClubError (msg : String)
deriving Repr, DecidableEq

/-- `Order.add(loan_id, amount)` (`lendingclub/__init__.py` lines 906-928):
asserts `amount > 0 and amount % 25 == 0`, then writes
`self.loans[loan_id] = amount`. -/
def Order.add (o : Order) (loanId : Nat) (amount : Int) : Except LCError Order :=
  if ¬ (amount > 0 ∧ amount % 25 = 0) then
    .error (.assertionError "Amount must be a multiple of 25")
  else
    .ok { o with loans := setLoan o.loans loanId amount }

/-- `Order.remove(loan_id)` (`lendingclub/__init__.py` lines 996-1006):
`if loan_id in self.loans: del self.loans[loan_id]`.  Total: it never
raises. -/
def Order.remove (o : Order) (loanId : Nat) : Order :=
  { o with loans := delLoan o.loans loanId }

/-! ## `Order.execute` (`lendingclub/__init__.py` lines 1014-1047)

The remote side of an execution — whether every staging call reported
success, the anti-forgery token scraped from the place-order page, the
`order_id` element scraped from the confirmation page, and the result of
the optional bucket assignment — is an input to the embedded function. -/

/-- The server's observable behaviour during one `Order.execute` run.

* `stageOk` — `__stage_order` (lines 1076-1132): `True` iff the loan-id
  search, every per-loan `addToPortfolio` call and the final
  `addToPortfolioNew` call all report success.
* `strutToken` — `__get_strut_token` (lines 1134-1183): the scraped
  `{name, value}` token, `none` when absent from the markup.
* `confirmOrderId` — `__place_order` (lines 1185-1231): the value of the
  `order_id` element of the confirmation page, `none` when not found.
* `assignOk` — `Order.assign_to_portfolio` (lines 1049-1074): `True` iff
  the bucket-assignment call succeeds. -/
structure ExecuteRemote where
  stageOk : Bool
  strutToken : Option (String × String)
  confirmOrderId : Option Nat
  assignOk : Bool
deriving Repr, DecidableEq

/-- `Order.__stage_order` collapsed to its success/failure outcome: any
failing step raises a `LendingClubError` before a token is requested. -/
def stageOrder (r : ExecuteRemote) : Except LCError Unit :=
  if r.stageOk then .ok () else .error (.lendingClubError "Could not stage the loans")

/-- `Order.__get_strut_token`: the scraped token must be present with a
non-empty (stripped) value, else a `LendingClubError` is raised. -/
def getStrutToken (r : ExecuteRemote) : Except LCError (String × String) :=
  match r.strutToken with
  | some t =>
    if t.2 ≠ "" then .ok t
    else .error (.lendingClubError "No struts token. Please report this error.")
  | none => .error (.lendingClubError "No struts token. Please report this error.")

/-- `Order.__place_order(token)`: raises if the token value is empty,
posts it, reads `order_id` from the confirmation markup (defaulting to 0
when the element is absent), and raises iff that id is 0. -/
def placeOrder (r : ExecuteRemote) (token : String × String) : Except LCError Nat :=
  if token.2 = "" then
    .error (.lendingClubError "The token parameter is False, None or unknown.")
  else if r.confirmOrderId.getD 0 = 0 then
    .error (.lendingClubError "No order ID was found when placing the order.")
  else .ok (r.confirmOrderId.getD 0)

/-- `Order.execute(portfolio_name=None)` (lines 1014-1047).  Returns the
final `Order` state together with the raised error or the returned value;
the state is returned even on the error path because the python object is
mutated in place (`self.order_id = self.__place_order(token)` happens
before the optional assignment step). -/
def Order.execute (o : Order) (portfolioName : Option String) (r : ExecuteRemote) :
    Order × Except LCError Nat :=
  if o.orderId ≠ 0 then
    (o, .error (.assertionError "This order has already been place. Start a new order."))
  else if ¬ o.loans.length > 0 then
    (o, .error (.assertionError "There are not any loans in your order"))
  else
    match stageOrder r with
    | .error e => (o, .error e)
    | .ok () =>
      match getStrutToken r with
      | .error e => (o, .error e)
      | .ok token =>
        match placeOrder r token with
        | .error e => (o, .error e)
        | .ok orderId =>
          let o' := { o with orderId := orderId }
          match portfolioName with
          | none => (o', .ok orderId)
          | some _ =>
            -- `return self.assign_to_portfolio(portfolio_name)`: the
            -- python method returns `True`, embedded here as the order id
            -- already recorded on the object.
            if r.assignOk then (o', .ok orderId)
            else (o', .error (.lendingClubError "Could not assign order to portfolio"))

/-! ## `LendingClub.build_portfolio` option selection
(`lendingclub/__init__.py` lines 508-534)

The selection loop reads only the `percentage` field of each option dict
and tracks `(match_index, match_option)`; options are embedded as their
percentages (rational, since they arrive as JSON numbers) and the result
as `(index, percentage)`, `none` standing for `match_option is None`. -/

/-- The `for option in options` loop of `build_portfolio` (lines 509-529):
a perfect match on `max_percent` is taken immediately; an option above
`max_percent` stops the scan; otherwise an option at or above
`min_percent` that beats the current match replaces it. -/
def chooseOptionLoop : List ℚ → ℚ → ℚ → Nat → Option (Nat × ℚ) → Option (Nat × ℚ)
  | [], _, _, _, best => best
  | p :: rest, minP, maxP, i, best =>
    if p = maxP then some (i, p)
    else if p > maxP then best
    else
      match best with
      | none =>
        if minP ≤ p then chooseOptionLoop rest minP maxP (i + 1) (some (i, p))
        else chooseOptionLoop rest minP maxP (i + 1) none
      | some (j, q) =>
        if minP ≤ p ∧ q < p then chooseOptionLoop rest minP maxP (i + 1) (some (i, p))
        else chooseOptionLoop rest minP maxP (i + 1) (some (j, q))

def chooseOption (options : List ℚ) (minP maxP : ℚ) : Option (Nat × ℚ) :=
  chooseOptionLoop options minP maxP 0 none

/-- Reference rendering of the claim's selection rule, first half: the
result of scanning a prefix while keeping, among qualifying options
(percentage ≥ min), the one with the highest percentage seen so far.
Same shape as the loop, used to split the refinement proof. -/
def scanBest : List ℚ → ℚ → Nat → Option (Nat × ℚ) → Option (Nat × ℚ)
  | [], _, _, best => best
  | p :: rest, minP, i, best =>
    match best with
    | none =>
      if minP ≤ p then scanBest rest minP (i + 1) (some (i, p))
      else scanBest rest minP (i + 1) none
    | some (j, q) =>
      if minP ≤ p ∧ q < p then scanBest rest minP (i + 1) (some (i, p))
      else scanBest rest minP (i + 1) (some (j, q))

/-- The highest percentage among the options of `l` at or above `minP`
(the claim's "among the options scanned whose percentage is >=
min_percent, the one with the highest percentage"). -/
def maxQualifying : List ℚ → ℚ → Option ℚ
  | [], _ => none
  | p :: rest, minP =>
    if minP ≤ p then
      match maxQualifying rest minP with
      | none => some p
      | some q => some (max p q)
    else maxQualifying rest minP

/-- Index of the first occurrence of `v` in `l`. -/
def firstIdxOf : List ℚ → ℚ → Nat
  | [], _ => 0
  | p :: rest, v => if p = v then 0 else firstIdxOf rest v + 1

/-- The claim's selection rule, stated declaratively: scan the prefix of
options strictly below `max_percent`; if the first option at or beyond
`max_percent` equals it exactly, select it; otherwise select the first
option attaining the highest qualifying percentage of the scanned
prefix; `none` when nothing qualifies ("no portfolio found", `False`). -/
def chooseOptionSpec (options : List ℚ) (minP maxP : ℚ) : Option (Nat × ℚ) :=
  let scanned := options.takeWhile (fun p => decide (p < maxP))
  let best : Option (Nat × ℚ) :=
    match maxQualifying scanned minP with
    | none => none
    | some m => some (firstIdxOf scanned m, m)
  match options[scanned.length]? with
  | some p => if p = maxP then some (scanned.length, p) else best
  | none => best

/-! ## The `Filter` configuration (`lendingclub/filters.py`, class `Filter`)

A `Filter` is a python dict with keys `term`, `exclude_existing`,
`funding_progress`, `grades` (always present after `__init__`) and, for
the subclasses, `loan_id` (`FilterByLoanID`) and `loan_purpose`;
`__getitem__` normalizes the configuration before reading and
`__setitem__` writes — merging into the grade map rather than replacing
it — and then normalizes (lines 181-235). -/

/-- The grade map: `All` plus the letters A-G (lines 137-146). -/
structure Grades where
  all : Bool
  a : Bool
  b : Bool
  c : Bool
  d : Bool
  e : Bool
  f : Bool
  g : Bool
deriving Repr, DecidableEq

/-- The term map `{Year3, Year5}` (lines 131-134). -/
structure TermCfg where
  year3 : Bool
  year5 : Bool
deriving Repr, DecidableEq

/-- The filter configuration.  `loanPurpose` embeds the optional
`loan_purpose` facet as its key/value pairs (a scalar value `v` stands
for `{v: True}`, line 337-338); `loanId` embeds the optional `loan_id`
facet as the comma-split list `str(self['loan_id']).split(',')`
(line 304). -/
structure FilterCfg where
  term : TermCfg
  excludeExisting : Bool
  fundingProgress : Int
  grades : Grades
  loanPurpose : Option (List (String × Bool))
  loanId : Option (List String)
deriving Repr, DecidableEq

/-- `Filter.__normalize_grades` (lines 197-207): when `All` is true and
some individual grade is true, set `All` to false. -/
def normalizeGrades (gr : Grades) : Grades :=
  if gr.all = true ∧ (gr.a || gr.b || gr.c || gr.d || gr.e || gr.f || gr.g) = true then
    { gr with all := false }
  else gr

/-- Python 2 `int(round(float(p) / 10))`: round half away from zero
(exact on the integer inputs used here). -/
def roundHalfAwayDiv10 (p : Int) : Int :=
  if 0 ≤ p then ((p.toNat + 5) / 10 : Nat) else -((((-p).toNat + 5) / 10 : Nat) : Int)

/-- `Filter.__normalize_progress` (lines 209-219): when
`funding_progress % 10 != 0`, replace it by
`int(round(float(progress) / 10)) * 10`. -/
def normalizeProgress (p : Int) : Int :=
  if p % 10 ≠ 0 then roundHalfAwayDiv10 p * 10 else p

/-- `Filter.__normalize` (lines 221-235): adjust grades, then progress. -/
def FilterCfg.normalize (cfg : FilterCfg) : FilterCfg :=
  { cfg with
    grades := normalizeGrades cfg.grades
    fundingProgress := normalizeProgress cfg.fundingProgress }

/-- A partial grade map, as passed to `filter['grades'] = {...}`: only
the keys present are merged (`__merge_values`, lines 159-179). -/
structure GradesUpdate where
  all : Option Bool
  a : Option Bool
  b : Option Bool
  c : Option Bool
  d : Option Bool
  e : Option Bool
  f : Option Bool
  g : Option Bool
deriving Repr, DecidableEq

/-- `__merge_values` of a partial grade map into the existing one: keys
present in the update replace the old values, the rest are kept. -/
def mergeGrades (old : Grades) (u : GradesUpdate) : Grades :=
  { all := u.all.getD old.all
    a := u.a.getD old.a
    b := u.b.getD old.b
    c := u.c.getD old.c
    d := u.d.getD old.d
    e := u.e.getD old.e
    f := u.f.getD old.f
    g := u.g.getD old.g }

/-- A write through `Filter.__setitem__`: one of the four base keys with
its new value (`grades` carries a partial map to merge). -/
inductive FilterWrite where
  | termKey (t : TermCfg)
  | excludeExistingKey (bv : Bool)
  | fundingProgressKey (p : Int)
  | gradesKey (u : GradesUpdate)
deriving Repr, DecidableEq

/-- The dict write performed by `__setitem__` before normalizing
(lines 185-194): plain keys replace their value, `grades` merges. -/
def applyWrite (cfg : FilterCfg) : FilterWrite → FilterCfg
  | .termKey t => { cfg with term := t }
  | .excludeExistingKey bv => { cfg with excludeExisting := bv }
  | .fundingProgressKey p => { cfg with fundingProgress := p }
  | .gradesKey u => { cfg with grades := mergeGrades cfg.grades u }

/-- `Filter.__setitem__` (lines 185-195): write, then normalize. -/
def setItem (cfg : FilterCfg) (w : FilterWrite) : FilterCfg :=
  (applyWrite cfg w).normalize

/-- The configuration state after `Filter.__getitem__` (lines 181-183),
which normalizes before reading. -/
def getItemState (cfg : FilterCfg) : FilterCfg := cfg.normalize

/-- The configuration state after `Filter.__init__` (lines 125-157):
the defaults merged with the caller's overrides — `cfg` stands for that
merged dict — then normalized. -/
def mkFilter (cfg : FilterCfg) : FilterCfg := cfg.normalize

/-- The default configuration set by `Filter.__init__` (lines 131-146):
both terms, exclude-existing, zero progress, grade `All` only. -/
def defaultFilter : FilterCfg :=
  { term := ⟨true, true⟩
    excludeExisting := true
    fundingProgress := 0
    grades := ⟨true, false, false, false, false, false, false, false⟩
    loanPurpose := none
    loanId := none }

/-- The grade half of the claim's invariant: if any individual grade A-G
is enabled, `All` is false. -/
def gradesInvariant (gr : Grades) : Prop :=
  (gr.a || gr.b || gr.c || gr.d || gr.e || gr.f || gr.g) = true → gr.all = false

instance : DecidablePred gradesInvariant := fun gr =>
  inferInstanceAs (Decidable (_ → _))

/-! ## `Filter.validate` / `Filter.validate_one`
(`lendingclub/filters.py` lines 237-344)

A loan record is embedded with the fields `validate_one` reads; the
`req` missing-key loop (lines 287-300) can never fire on such a record,
so it has no counterpart.  The amounts arrive as JSON decimal numbers and
are divided with python true division, embedded as `ℚ` (a zero
`loanAmountRequested` would make python raise `ZeroDivisionError`;
records are expected to carry a positive requested amount).  The
`loan_purpose` facet is its key/value pairs, a scalar `v` standing for
`{v: True}` (lines 337-338); `loan['purpose'] is False` is `none`. -/

/-- A loan record, with `loanGUID` already through `str()` (line 305). -/
structure LoanRecord where
  loanGUID : String
  loanGrade : String
  loanLength : Int
  loanUnfundedAmount : ℚ
  loanAmountRequested : ℚ
  alreadyInvestedIn : Bool
  purpose : Option String
deriving Repr, DecidableEq

/-- What `validate_one` raises: a `FilterValidationError` carrying the
offending record and failed facet, or the `IndexError` python produces on
line 309 when `loanGrade` is the empty string. -/
inductive ValidationRaise where
  | fv (loan : LoanRecord) (criteria : String)
  | indexError
deriving Repr, DecidableEq

/-- `grade not in self['grades']` for the single-letter `grade` string:
membership among the keys `All, A-G` (line 311). -/
def gradeKnown (c : Char) : Bool :=
  c = 'A' || c = 'B' || c = 'C' || c = 'D' || c = 'E' || c = 'F' || c = 'G'

/-- `self['grades'][grade]` for a known single-letter grade. -/
def gradeEnabled (gr : Grades) (c : Char) : Bool :=
  if c = 'A' then gr.a
  else if c = 'B' then gr.b
  else if c = 'C' then gr.c
  else if c = 'D' then gr.d
  else if c = 'E' then gr.e
  else if c = 'F' then gr.f
  else if c = 'G' then gr.g
  else false

/-- Key lookup in the `loan_purpose` dict. -/
def lookupPurpose : List (String × Bool) → String → Option Bool
  | [], _ => none
  | (k, v) :: rest, key => if k = key then some v else lookupPurpose rest key

/-- Lines 334-342: the loan-purpose facet, reached last. -/
def validateFromPurpose (cfg : FilterCfg) (l : LoanRecord) :
    Except ValidationRaise Unit :=
  match cfg.loanPurpose, l.purpose with
  | some purpose, some p =>
    if (lookupPurpose purpose "All").getD false = true then .ok ()
    else if (purpose.map Prod.fst).contains p then .ok ()
    else .error (.fv l "loan purpose")
  | _, _ => .ok ()

/-- Lines 329-332: the exclude-already-invested facet. -/
def validateFromExclude (cfg : FilterCfg) (l : LoanRecord) :
    Except ValidationRaise Unit :=
  if cfg.excludeExisting = true ∧ l.alreadyInvestedIn = true then
    .error (.fv l "exclude loans you are invested in")
  else validateFromPurpose cfg l

/-- Lines 323-327: the funded-progress facet;
`loan_progress = (1 - (loanUnfundedAmount / loanAmountRequested)) * 100`. -/
def validateFromProgress (cfg : FilterCfg) (l : LoanRecord) :
    Except ValidationRaise Unit :=
  if (cfg.fundingProgress : ℚ) >
      (1 - l.loanUnfundedAmount / l.loanAmountRequested) * 100 then
    .error (.fv l "funding progress")
  else validateFromExclude cfg l

/-- Lines 316-321: the term facet (only the 36- and 60-month lengths are
constrained). -/
def validateFromTerm (cfg : FilterCfg) (l : LoanRecord) :
    Except ValidationRaise Unit :=
  if l.loanLength = 36 ∧ cfg.term.year3 = false then .error (.fv l "loan term")
  else if l.loanLength = 60 ∧ cfg.term.year5 = false then .error (.fv l "loan term")
  else validateFromProgress cfg l

/-- Lines 308-314: extract the first letter of the grade (python raises
`IndexError` on an empty string) and, unless `All` is enabled, require a
known and enabled grade letter. -/
def validateFromGrade (cfg : FilterCfg) (l : LoanRecord) :
    Except ValidationRaise Unit :=
  match l.loanGrade.data with
  | [] => .error .indexError
  | c :: _ =>
    if cfg.grades.all = true then validateFromTerm cfg l
    else if gradeKnown c = false then .error (.fv l "grade")
    else if gradeEnabled cfg.grades c = false then .error (.fv l "grade")
    else validateFromTerm cfg l

/-- `Filter.validate_one` (lines 265-344): the facet checks in source
order, starting with the optional loan-id allowlist (lines 302-306). -/
def validateOne (cfg : FilterCfg) (l : LoanRecord) : Except ValidationRaise Unit :=
  match cfg.loanId with
  | some ids =>
    if l.loanGUID ∈ ids then validateFromGrade cfg l
    else .error (.fv l "loan ID")
  | none => validateFromGrade cfg l

/-- `Filter.validate` (lines 237-263): each record through
`validate_one`, first raise propagates, `True` otherwise. -/
def validate : FilterCfg → List LoanRecord → Except ValidationRaise Bool
  | _, [] => .ok true
  | cfg, l :: rest =>
    match validateOne cfg l with
    | .error e => .error e
    | .ok () => validate cfg rest

/-! Reference facet predicates, one per facet of the claim, against which
`validate_one` is proved. -/

/-- The loan-id allowlist facet accepts the record. -/
def loanIdOk (cfg : FilterCfg) (l : LoanRecord) : Bool :=
  match cfg.loanId with
  | some ids => decide (l.loanGUID ∈ ids)
  | none => true

/-- The grade facet accepts the record (`false` on an empty grade, which
python turns into an `IndexError` instead of a validation error). -/
def gradeFacetOk (cfg : FilterCfg) (l : LoanRecord) : Bool :=
  match l.loanGrade.data with
  | [] => false
  | c :: _ =>
    if cfg.grades.all = true then true
    else gradeKnown c && gradeEnabled cfg.grades c

/-- The term facet accepts the record. -/
def termOk (cfg : FilterCfg) (l : LoanRecord) : Bool :=
  if l.loanLength = 36 then cfg.term.year3
  else if l.loanLength = 60 then cfg.term.year5
  else true

/-- The funded-progress facet accepts the record: the filter's
`funding_progress` does not exceed `(1 − unfunded/requested) × 100`. -/
def progressOk (cfg : FilterCfg) (l : LoanRecord) : Bool :=
  decide ((cfg.fundingProgress : ℚ) ≤
    (1 - l.loanUnfundedAmount / l.loanAmountRequested) * 100)

/-- The exclude-already-invested facet accepts the record. -/
def excludeOk (cfg : FilterCfg) (l : LoanRecord) : Bool :=
  !(cfg.excludeExisting && l.alreadyInvestedIn)

/-- The loan-purpose facet accepts the record. -/
def purposeOk (cfg : FilterCfg) (l : LoanRecord) : Bool :=
  match cfg.loanPurpose, l.purpose with
  | some purpose, some p =>
    if (lookupPurpose purpose "All").getD false = true then true
    else (purpose.map Prod.fst).contains p
  | _, _ => true

/-- The record satisfies every active facet of the filter. -/
def satisfiesAll (cfg : FilterCfg) (l : LoanRecord) : Bool :=
  loanIdOk cfg l && gradeFacetOk cfg l && termOk cfg l &&
    progressOk cfg l && excludeOk cfg l && purposeOk cfg l

/-- The first facet, in source check order, that the record fails. -/
def firstFailedFacet (cfg : FilterCfg) (l : LoanRecord) : Option String :=
  if loanIdOk cfg l = false then some "loan ID"
  else if gradeFacetOk cfg l = false then some "grade"
  else if termOk cfg l = false then some "loan term"
  else if progressOk cfg l = false then some "funding progress"
  else if excludeOk cfg l = false then some "exclude loans you are invested in"
  else if purposeOk cfg l = false then some "loan purpose"
  else none

/-- Whether an embedded python call returned normally (`.ok`) or raised
(`.error`). -/
def isOk {α : Type} : Except LCError α → Bool
  | .ok _ => true
  | .error _ => false

/-! ## `LendingClub.assign_to_portfolio` (`lendingclub/__init__.py` lines 258-323) -/

/-- The server's response to the bucket-assignment POST:
`session.json_success(json_response)` and the `portfolioName` key of the
JSON body, when present. -/
structure AssignResponse where
  success : Bool
  portfolioName : Option String
deriving Repr, DecidableEq

/-- Lines 291-300: the query `method` defaults to `createLCPortfolio` and
switches to `addToLCPortfolio` when the requested name appears in the
caller's current bucket list. -/
def chooseAssignMethod (portfolioName : String) (existing : List String) : String :=
  if portfolioName ∈ existing then "addToLCPortfolio" else "createLCPortfolio"

/-- Lines 306-323: a non-success response raises; a success response whose
`portfolioName` differs from the requested name **also raises** a
`LendingClubError` (lines 313-315); otherwise the call returns `True`. -/
def assignToPortfolio (portfolioName : String) (existing : List String)
    (resp : AssignResponse) : Except LCError Bool :=
  if resp.success = false then
    .error (.lendingClubError "Could not assign order to portfolio")
  else
    match resp.portfolioName with
    | some n =>
      if n ≠ portfolioName then
        .error (.lendingClubError "Added order to a different portfolio")
      else .ok true
    | none => .ok true

/-! ## `Filter.search_string` cleanup passes (`lendingclub/filters.py` lines 346-380) -/

/-- Python 2 `\s` on byte strings: space, tab, newline, CR, vertical tab,
form feed. -/
def isPyWs (c : Char) : Bool :=
  c = ' ' || c = '\t' || c = '\n' || c = '\r' || c = '\x0b' || c = '\x0c'

/-- The closing brackets of the hanging-comma pattern `,\s*([}\]])`. -/
def isClose (c : Char) : Bool := c = '\x7d' || c = ']'

/-- The bracket class `[{\[}\]]` of the bracket-spacing pattern. -/
def isBracketChar (c : Char) : Bool :=
  c = '\x7b' || c = '[' || c = '\x7d' || c = ']'

/-- The structural punctuation class `[{\[\]}:,]`. -/
def isPunct (c : Char) : Bool :=
  c = '\x7b' || c = '[' || c = ']' || c = '\x7d' || c = ':' || c = ','

/-- `re.sub('\n', '', out)` (filters.py line 368). -/
def removeNewlines : List Char → List Char
  | [] => []
  | c :: rest => if c = '\n' then removeNewlines rest else c :: removeNewlines rest

/-- `re.sub('\s{3,}', ' ', out)` (line 369): each maximal whitespace run
of three or more characters becomes a single space. -/
def collapseWs : List Char → List Char
  | [] => []
  | c :: rest =>
    if isPyWs c then
      if 3 ≤ (List.takeWhile isPyWs (c :: rest)).length then
        ' ' :: collapseWs (List.dropWhile isPyWs rest)
      else c :: collapseWs rest
    else c :: collapseWs rest
termination_by l => l.length
decreasing_by
  all_goals
    first
    | (simp
       done)
    | exact Nat.lt_succ_of_le (List.dropWhile_sublist isPyWs).length_le
    | exact Nat.lt_succ_of_le (Nat.le_trans (List.tail_sublist _).length_le
        (List.dropWhile_sublist isPyWs).length_le)
    | exact Nat.lt_succ_of_le (Nat.le_succ_of_le (Nat.le_trans
        (List.tail_sublist _).length_le (List.dropWhile_sublist isPyWs).length_le))
    | exact Nat.lt_succ_of_le (Nat.le_trans (List.dropWhile_sublist isPyWs).length_le
        (Nat.le_trans (List.tail_sublist _).length_le
          (List.dropWhile_sublist isPyWs).length_le))

/-- `re.sub(',\s*([}\]])', '\1', out)` (line 372): a comma followed by
optional whitespace and a closing bracket is replaced by the bracket;
scanning resumes after the bracket (python `re.sub` does not rescan). -/
def removeHangingCommas : List Char → List Char
  | [] => []
  | c :: rest =>
    if c = ',' then
      match (List.dropWhile isPyWs rest).head? with
      | some d =>
        if isClose d then d :: removeHangingCommas (List.dropWhile isPyWs rest).tail
        else c :: removeHangingCommas rest
      | none => c :: removeHangingCommas rest
    else c :: removeHangingCommas rest
termination_by l => l.length
decreasing_by
  all_goals
    first
    | (simp
       done)
    | exact Nat.lt_succ_of_le (List.dropWhile_sublist isPyWs).length_le
    | exact Nat.lt_succ_of_le (Nat.le_trans (List.tail_sublist _).length_le
        (List.dropWhile_sublist isPyWs).length_le)
    | exact Nat.lt_succ_of_le (Nat.le_succ_of_le (Nat.le_trans
        (List.tail_sublist _).length_le (List.dropWhile_sublist isPyWs).length_le))
    | exact Nat.lt_succ_of_le (Nat.le_trans (List.dropWhile_sublist isPyWs).length_le
        (Nat.le_trans (List.tail_sublist _).length_le
          (List.dropWhile_sublist isPyWs).length_le))

/-- `re.sub('([{\[}\]])(,?)\s*([{\[}\]])', '\1\2\3', out)` (line 375):
whitespace (after an optional comma) between two brackets is removed;
scanning resumes after the second bracket. -/
def removeBracketSpace : List Char → List Char
  | [] => []
  | c :: rest =>
    if isBracketChar c then
      match rest with
      | r :: rest2 =>
        if r = ',' then
          match (List.dropWhile isPyWs rest2).head? with
          | some d =>
            if isBracketChar d then
              c :: r :: d :: removeBracketSpace (List.dropWhile isPyWs rest2).tail
            else c :: removeBracketSpace (r :: rest2)
          | none => c :: removeBracketSpace (r :: rest2)
        else
          match (List.dropWhile isPyWs (r :: rest2)).head? with
          | some d =>
            if isBracketChar d then
              c :: d :: removeBracketSpace (List.dropWhile isPyWs (r :: rest2)).tail
            else c :: removeBracketSpace (r :: rest2)
          | none => c :: removeBracketSpace (r :: rest2)
      | [] => c :: removeBracketSpace ([] : List Char)
    else c :: removeBracketSpace rest
termination_by l => l.length
decreasing_by
  all_goals
    first
    | (simp
       done)
    | exact Nat.lt_succ_of_le (List.dropWhile_sublist isPyWs).length_le
    | exact Nat.lt_succ_of_le (Nat.le_trans (List.tail_sublist _).length_le
        (List.dropWhile_sublist isPyWs).length_le)
    | exact Nat.lt_succ_of_le (Nat.le_succ_of_le (Nat.le_trans
        (List.tail_sublist _).length_le (List.dropWhile_sublist isPyWs).length_le))
    | exact Nat.lt_succ_of_le (Nat.le_trans (List.dropWhile_sublist isPyWs).length_le
        (Nat.le_trans (List.tail_sublist _).length_le
          (List.dropWhile_sublist isPyWs).length_le))

/-- `re.sub('\s*([{\[\]}:,])\s*', '\1', out)` (line 378): whitespace
around each structural punctuation character is removed; a whitespace run
not followed by punctuation is kept as-is. -/
def removePunctSpace : List Char → List Char
  | [] => []
  | c :: rest =>
    if isPunct c then c :: removePunctSpace (List.dropWhile isPyWs rest)
    else if isPyWs c then
      match (List.dropWhile isPyWs rest).head? with
      | some d =>
        if isPunct d then
          d :: removePunctSpace
            (List.dropWhile isPyWs (List.dropWhile isPyWs rest).tail)
        else (c :: List.takeWhile isPyWs rest) ++
          removePunctSpace (List.dropWhile isPyWs rest)
      | none => c :: rest
    else c :: removePunctSpace rest
termination_by l => l.length
decreasing_by
  all_goals
    first
    | (simp
       done)
    | exact Nat.lt_succ_of_le (List.dropWhile_sublist isPyWs).length_le
    | exact Nat.lt_succ_of_le (Nat.le_trans (List.tail_sublist _).length_le
        (List.dropWhile_sublist isPyWs).length_le)
    | exact Nat.lt_succ_of_le (Nat.le_succ_of_le (Nat.le_trans
        (List.tail_sublist _).length_le (List.dropWhile_sublist isPyWs).length_le))
    | exact Nat.lt_succ_of_le (Nat.le_trans (List.dropWhile_sublist isPyWs).length_le
        (Nat.le_trans (List.tail_sublist _).length_le
          (List.dropWhile_sublist isPyWs).length_le))

/-- The full cleanup pipeline of `Filter.search_string`
(lines 363-378), in source order. -/
def searchStringCleanup (l : List Char) : List Char :=
  removePunctSpace (removeBracketSpace (removeHangingCommas
    (collapseWs (removeNewlines l))))

/-- Length of the leading whitespace run. -/
def leadWs (l : List Char) : Nat := (List.takeWhile isPyWs l).length

/-- Scanner: some position starts a run of three or more whitespace characters. -/
def hasTripleWs : List Char → Bool
  | [] => false
  | c :: rest => (isPyWs c && decide (2 ≤ leadWs rest)) || hasTripleWs rest

/-- Scanner: some position starts a run of three or more space characters. -/
def hasTripleSpace : List Char → Bool
  | [] => false
  | c :: rest =>
    (c = ' ' && decide (2 ≤ (List.takeWhile (fun x => x = ' ') rest).length)) ||
      hasTripleSpace rest

/-- Scanner: some comma is followed, after optional whitespace, by another comma. -/
def hasDoubleComma : List Char → Bool
  | [] => false
  | c :: rest =>
    (c = ',' && ((List.dropWhile isPyWs rest).head? = some ',')) || hasDoubleComma rest

/-- Scanner: some comma is followed, after optional whitespace, by a closing
bracket or brace. -/
def hasCommaBeforeClose : List Char → Bool
  | [] => false
  | c :: rest =>
    (c = ',' && ((List.dropWhile isPyWs rest).head?.any isClose)) || hasCommaBeforeClose rest

/-- Scanner: some whitespace character is immediately adjacent to a structural
punctuation character. -/
def hasWsPunctAdj : List Char → Bool
  | [] => false
  | c :: rest =>
    (rest.head?.any fun d => (isPyWs c && isPunct d) || (isPunct c && isPyWs d)) ||
      hasWsPunctAdj rest

/-- Modelled from the spec: `Filter.search_string()` renders the
`filter.handlebars` template (the template file is not part of `src/`; the
spec treats the query builder as a black box) and then applies the cleanup
passes of lines 363-378.  The rendered template is modelled as an arbitrary
function from the filter configuration to a character string. -/
def searchStringChars (tmpl : FilterCfg → List Char) (cfg : FilterCfg) : List Char :=
  searchStringCleanup (tmpl cfg)

/-! ### Lemmas about the loan-mapping primitives -/

/-- The key list of a loan mapping. -/
def loanKeys (m : LoanMap) : List Nat := m.map Prod.fst

theorem loansWF_iff (m : LoanMap) : loansWF m ↔ (loanKeys m).Nodup := Iff.rfl

theorem loanKeys_cons (k : Nat) (v : Int) (m : LoanMap) :
    loanKeys ((k, v) :: m) = k :: loanKeys m := rfl

theorem lookupLoan_eq_none_iff (m : LoanMap) (k : Nat) :
    lookupLoan m k = none ↔ k ∉ loanKeys m := by
  induction m with
  | nil => simp [lookupLoan, loanKeys]
  | cons p rest ih =>
    obtain ⟨k', v'⟩ := p
    rw [loanKeys_cons, List.mem_cons]
    by_cases h : k' = k
    · subst h
      simp [lookupLoan]
    · simp [lookupLoan, h, ih, Ne.symm h]

theorem lookupLoan_setLoan_self (m : LoanMap) (k : Nat) (v : Int) :
    lookupLoan (setLoan m k v) k = some v := by
  induction m with
  | nil => simp [setLoan, lookupLoan]
  | cons p rest ih =>
    obtain ⟨k', v'⟩ := p
    by_cases h : k' = k <;> simp [setLoan, lookupLoan, h, ih]

theorem lookupLoan_setLoan_other (m : LoanMap) (k k' : Nat) (v : Int) (h : k' ≠ k) :
    lookupLoan (setLoan m k v) k' = lookupLoan m k' := by
  induction m with
  | nil => simp [setLoan, lookupLoan, Ne.symm h]
  | cons p rest ih =>
    obtain ⟨k₀, v₀⟩ := p
    by_cases h0 : k₀ = k
    · subst h0
      simp [setLoan, lookupLoan, Ne.symm h]
    · simp [setLoan, lookupLoan, h0, ih]

theorem loanKeys_setLoan (m : LoanMap) (k : Nat) (v : Int) :
    loanKeys (setLoan m k v) =
      if k ∈ loanKeys m then loanKeys m else loanKeys m ++ [k] := by
  induction m with
  | nil => simp [setLoan, loanKeys]
  | cons p rest ih =>
    obtain ⟨k₀, v₀⟩ := p
    by_cases h0 : k₀ = k
    · subst h0
      simp [setLoan, loanKeys_cons]
    · rw [setLoan, if_neg h0, loanKeys_cons, loanKeys_cons, ih]
      by_cases hm : k ∈ loanKeys rest
      · simp [hm]
      · simp [hm, Ne.symm h0]

theorem loansWF_setLoan (m : LoanMap) (k : Nat) (v : Int) (h : loansWF m) :
    loansWF (setLoan m k v) := by
  rw [loansWF_iff, loanKeys_setLoan]
  by_cases hm : k ∈ loanKeys m
  · simpa [hm] using h
  · rw [if_neg hm]
    refine List.Nodup.append h (List.nodup_singleton k) ?_
    simpa [List.disjoint_singleton] using hm

theorem filter_key_eq_nil (m : LoanMap) (k : Nat) (h : k ∉ loanKeys m) :
    m.filter (fun p => p.1 = k) = [] := by
  induction m with
  | nil => simp
  | cons p rest ih =>
    obtain ⟨k₀, v₀⟩ := p
    rw [loanKeys_cons, List.mem_cons] at h
    push_neg at h
    simp [List.filter_cons, Ne.symm h.1, ih h.2]

theorem filter_setLoan_self (m : LoanMap) (k : Nat) (v : Int) (h : loansWF m) :
    (setLoan m k v).filter (fun p => p.1 = k) = [(k, v)] := by
  induction m with
  | nil => simp [setLoan]
  | cons p rest ih =>
    obtain ⟨k₀, v₀⟩ := p
    rw [loansWF_iff, loanKeys_cons, List.nodup_cons] at h
    by_cases h0 : k₀ = k
    · subst h0
      simp [setLoan, List.filter_cons, filter_key_eq_nil rest k₀ h.1]
    · simp [setLoan, h0, List.filter_cons, ih h.2]

theorem lookupLoan_delLoan_self (m : LoanMap) (k : Nat) (h : loansWF m) :
    lookupLoan (delLoan m k) k = none := by
  induction m with
  | nil => simp [delLoan, lookupLoan]
  | cons p rest ih =>
    obtain ⟨k₀, v₀⟩ := p
    rw [loansWF_iff, loanKeys_cons, List.nodup_cons] at h
    by_cases h0 : k₀ = k
    · subst h0
      simpa [delLoan] using (lookupLoan_eq_none_iff rest k₀).mpr h.1
    · simp [delLoan, lookupLoan, h0, ih h.2]

theorem lookupLoan_delLoan_other (m : LoanMap) (k k' : Nat) (h : k' ≠ k) :
    lookupLoan (delLoan m k) k' = lookupLoan m k' := by
  induction m with
  | nil => simp [delLoan]
  | cons p rest ih =>
    obtain ⟨k₀, v₀⟩ := p
    by_cases h0 : k₀ = k
    · subst h0
      simp [delLoan, lookupLoan, Ne.symm h]
    · simp [delLoan, lookupLoan, h0, ih]

theorem delLoan_of_not_mem (m : LoanMap) (k : Nat) (h : k ∉ loanKeys m) :
    delLoan m k = m := by
  induction m with
  | nil => rfl
  | cons p rest ih =>
    obtain ⟨k₀, v₀⟩ := p
    rw [loanKeys_cons, List.mem_cons] at h
    push_neg at h
    simp [delLoan, Ne.symm h.1, ih h.2]

theorem loanKeys_delLoan_sublist (m : LoanMap) (k : Nat) :
    List.Sublist (loanKeys (delLoan m k)) (loanKeys m) := by
  induction m with
  | nil => simp [delLoan]
  | cons p rest ih =>
    obtain ⟨k₀, v₀⟩ := p
    by_cases h0 : k₀ = k
    · subst h0
      simp [delLoan, loanKeys_cons, List.sublist_cons_self]
    · rw [delLoan, if_neg h0, loanKeys_cons, loanKeys_cons]
      exact ih.cons₂ k₀

theorem loansWF_delLoan (m : LoanMap) (k : Nat) (h : loansWF m) :
    loansWF (delLoan m k) :=
  h.sublist (loanKeys_delLoan_sublist m k)

/-! ### Claim theorems about `Order.add`, `Order.remove`, `Order.execute` -/

/-- **C9.** `Order.add(loan_id, amount)` raises exactly when the amount is
zero, negative, or not a multiple of 25 (0 and 26 rejected, 25 and 100
accepted); otherwise it stores the amount as the single entry for that
loan id, replacing any previous amount, leaving every other entry and the
order id unchanged: the mapping keeps exactly one entry per loan id,
holding the most recent amount. -/
theorem order_add_spec (o : Order) (k : Nat) (a : Int) (hwf : loansWF o.loans) :
    (a ≤ 0 ∨ a % 25 ≠ 0 → isOk (o.add k a) = false) ∧
    (∀ o', o.add k a = .ok o' →
      (0 < a ∧ a % 25 = 0) ∧
      lookupLoan o'.loans k = some a ∧
      (∀ k', k' ≠ k → lookupLoan o'.loans k' = lookupLoan o.loans k') ∧
      o'.loans.filter (fun p => p.1 = k) = [(k, a)] ∧
      loansWF o'.loans ∧
      o'.orderId = o.orderId) ∧
    isOk (o.add k 0) = false ∧ isOk (o.add k 26) = false ∧
    isOk (o.add k 25) = true ∧ isOk (o.add k 100) = true := by
  refine ⟨?_, ?_, ?_, ?_, ?_, ?_⟩
  · intro h
    have hc : ¬ (a > 0 ∧ a % 25 = 0) := by
      rcases h with h | h
      · intro hx; omega
      · intro hx; exact h hx.2
    rw [Order.add, if_pos hc]
    rfl
  · intro o' h
    have hc : a > 0 ∧ a % 25 = 0 := by
      by_contra hc
      rw [Order.add, if_pos hc] at h
      exact absurd h (by simp)
    rw [Order.add, if_neg (not_not_intro hc)] at h
    cases h
    refine ⟨hc, lookupLoan_setLoan_self _ _ _, ?_, ?_, ?_, rfl⟩
    · intro k' hk'
      exact lookupLoan_setLoan_other _ _ _ _ hk'
    · exact filter_setLoan_self _ _ _ hwf
    · exact loansWF_setLoan _ _ _ hwf
  · rw [Order.add, if_pos (by decide)]
    rfl
  · rw [Order.add, if_pos (by decide)]
    rfl
  · rw [Order.add, if_neg (by decide)]
    rfl
  · rw [Order.add, if_neg (by decide)]
    rfl

/-- **C10.** `Order.remove(loan_id)` is total (never raises): it deletes
the entry for the loan id if present and otherwise leaves the order
untouched; every other entry and the order id are unchanged, and removing
twice equals removing once. -/
theorem order_remove_spec (o : Order) (k : Nat) (hwf : loansWF o.loans) :
    lookupLoan (o.remove k).loans k = none ∧
    (∀ k', k' ≠ k → lookupLoan (o.remove k).loans k' = lookupLoan o.loans k') ∧
    (o.remove k).orderId = o.orderId ∧
    (lookupLoan o.loans k = none → o.remove k = o) ∧
    (o.remove k).remove k = o.remove k ∧
    loansWF (o.remove k).loans := by
  refine ⟨?_, ?_, rfl, ?_, ?_, ?_⟩
  · exact lookupLoan_delLoan_self _ _ hwf
  · intro k' hk'
    exact lookupLoan_delLoan_other _ _ _ hk'
  · intro h
    have : delLoan o.loans k = o.loans :=
      delLoan_of_not_mem _ _ ((lookupLoan_eq_none_iff _ _).mp h)
    simp [Order.remove, this]
  · have h1 : lookupLoan (delLoan o.loans k) k = none :=
      lookupLoan_delLoan_self _ _ hwf
    have h2 : delLoan (delLoan o.loans k) k = delLoan o.loans k :=
      delLoan_of_not_mem _ _ ((lookupLoan_eq_none_iff _ _).mp h1)
    simp [Order.remove, h2]
  · exact loansWF_delLoan _ _ hwf

theorem execute_snd_ok (o : Order) (pname : Option String) (r : ExecuteRemote)
    (id : Nat) (h : (o.execute pname r).2 = .ok id) :
    (o.execute pname r).1.orderId = id ∧ id ≠ 0 := by
  by_cases h0 : o.orderId ≠ 0
  · rw [Order.execute, if_pos h0] at h
    exact absurd h (by simp)
  by_cases h1 : ¬ o.loans.length > 0
  · rw [Order.execute, if_neg h0, if_pos h1] at h
    exact absurd h (by simp)
  revert h
  rw [Order.execute, if_neg h0, if_neg h1]
  split
  · intro h
    exact absurd h (by simp)
  split
  · intro h
    exact absurd h (by simp)
  split
  · intro h
    exact absurd h (by simp)
  · rename_i oid hpl
    have hoid : oid ≠ 0 := by
      rw [placeOrder] at hpl
      split at hpl
      · exact absurd hpl (by simp)
      split at hpl
      · exact absurd hpl (by simp)
      rename_i hne
      cases hpl
      exact hne
    rcases pname with _ | n
    · intro h
      have hoi : oid = id := by simpa using h
      subst hoi
      exact ⟨rfl, hoid⟩
    · intro h
      by_cases has : r.assignOk = true
      · simp only [has, if_true] at h ⊢
        have hoi : oid = id := by simpa using h
        subst hoi
        exact ⟨rfl, hoid⟩
      · simp [has] at h

/-- **C1.** `Order.execute` raises when the loan mapping is empty or when
the order was already placed (`order_id ≠ 0`); a call that returns
normally has recorded a non-zero `order_id` on the order, so a second
`execute` on the resulting order always raises. -/
theorem order_execute_single_execution (o : Order) (pname : Option String)
    (r : ExecuteRemote) :
    (o.loans = [] ∨ o.orderId ≠ 0 → isOk (o.execute pname r).2 = false) ∧
    (isOk (o.execute pname r).2 = true → (o.execute pname r).1.orderId ≠ 0) ∧
    (isOk (o.execute pname r).2 = true →
      ∀ pname' r', isOk (((o.execute pname r).1).execute pname' r').2 = false) := by
  have hok : ∀ {α : Type} (x : Except LCError α), isOk x = true → ∃ v, x = .ok v := by
    intro α x hx
    cases x with
    | error e => simp [isOk] at hx
    | ok v => exact ⟨v, rfl⟩
  refine ⟨?_, ?_, ?_⟩
  · intro h
    by_cases h0 : o.orderId ≠ 0
    · rw [Order.execute, if_pos h0]
      rfl
    · have he : o.loans = [] := by tauto
      rw [Order.execute, if_neg h0, if_pos (by simp [he])]
      rfl
  · intro h
    obtain ⟨v, hv⟩ := hok _ h
    exact (execute_snd_ok o pname r v hv).1 ▸ (execute_snd_ok o pname r v hv).2
  · intro h pname' r'
    obtain ⟨v, hv⟩ := hok _ h
    obtain ⟨h1, h2⟩ := execute_snd_ok o pname r v hv
    rw [Order.execute, if_pos (by rw [h1]; exact h2)]
    rfl

/-- Witness for `order_add_spec`: rejecting an amount of 26 on a concrete
order whose mapping holds loan 7. -/
theorem order_add_spec_witness :
    isOk (Order.add ⟨[(7, 50)], 0⟩ 7 26) = false :=
  (order_add_spec ⟨[(7, 50)], 0⟩ 7 26 (by decide)).1 (by decide)

/-- Witness for `order_remove_spec`: removing loan 1 from a concrete
two-loan order deletes its entry. -/
theorem order_remove_spec_witness :
    lookupLoan (Order.remove ⟨[(1, 25), (2, 50)], 0⟩ 1).loans 1 = none :=
  (order_remove_spec ⟨[(1, 25), (2, 50)], 0⟩ 1 (by decide)).1

/-- Witness for `order_execute_single_execution`: a concrete successful
execution, after which a second `execute` raises. -/
theorem order_execute_single_execution_witness :
    isOk ((Order.execute ⟨[(1, 25)], 0⟩ none
        ⟨true, some ("token", "ABC"), some 55, true⟩).1.execute none
        ⟨true, some ("token", "ABC"), some 55, true⟩).2 = false :=
  (order_execute_single_execution ⟨[(1, 25)], 0⟩ none
      ⟨true, some ("token", "ABC"), some 55, true⟩).2.2 (by decide) none
      ⟨true, some ("token", "ABC"), some 55, true⟩

/-! ### Claim theorems about the `Session` reauthentication logic -/

/-- **C2.** When the elapsed time since the last request is at least the
session timeout, the next `request()` triggers exactly one
`authenticate()` — with the previously stored credentials — before the
HTTP call; when the elapsed time is below the timeout, no `authenticate()`
is triggered.  (The timeout must be positive, as the configured 10-minute
default is; three units of fuel cover the single nested login request.) -/
theorem session_reauth_spec (now : Int) (st : SessState) (httpOk : Bool) (f : Nat)
    (ht : 0 < st.sessionTimeout) :
    (st.sessionTimeout * 60 ≤ |now - st.lastRequestTime| →
      ∃ st' ok, sessionRequest (f + 3) now st httpOk =
        some ([(st.email, st.passwd)], st', ok)) ∧
    (|now - st.lastRequestTime| < st.sessionTimeout * 60 →
      ∃ st' ok, sessionRequest (f + 3) now st httpOk = some ([], st', ok)) := by
  have hinner : ∀ g : Nat, ∃ st' ok,
      sessionRequest (g + 1) now { st with lastRequestTime := now } httpOk =
        some ([], st', ok) := by
    intro g
    have hc : ¬ (|now - ({ st with lastRequestTime := now } : SessState).lastRequestTime| ≥
        ({ st with lastRequestTime := now } : SessState).sessionTimeout * 60) := by
      simp
      omega
    rw [sessionRequest, if_neg hc]
    cases httpOk
    · exact ⟨_, _, rfl⟩
    · exact ⟨_, _, rfl⟩
  constructor
  · intro hcond
    have hc : |now - st.lastRequestTime| ≥ st.sessionTimeout * 60 := hcond
    obtain ⟨st2, ok2, hin⟩ := hinner f
    rw [show f + 3 = (f + 2) + 1 from rfl, sessionRequest, if_pos hc,
      sessionAuthenticate, hin]
    cases ok2
    · exact ⟨_, _, rfl⟩
    · cases httpOk
      · exact ⟨_, _, rfl⟩
      · exact ⟨_, _, rfl⟩
  · intro hcond
    rw [show f + 3 = (f + 2) + 1 from rfl, sessionRequest, if_neg (not_le.mpr hcond)]
    cases httpOk
    · exact ⟨_, _, rfl⟩
    · exact ⟨_, _, rfl⟩

/-- Witness for `session_reauth_spec`: with the stored credentials
`("a", "b")`, a timeout of 10 minutes and 700 seconds elapsed, the next
request authenticates exactly once with those credentials. -/
theorem session_reauth_spec_witness :
    ∃ st' ok, sessionRequest 3 700 ⟨some "a", some "b", 0, 10⟩ true =
      some ([(some "a", some "b")], st', ok) :=
  (session_reauth_spec 700 ⟨some "a", some "b", 0, 10⟩ true 0 (by decide)).1
    (by decide)

/-- **C3 counterexample.** A `request()` made 5 seconds after the last one
(timeout 10 minutes) whose HTTP call raises a transport exception leaves
`last_request_time` at its old value 0 instead of recording the current
time 5: the update on line 281 of `session.py` sits after the HTTP call
inside the `try` block, so the `NetworkError` path skips it. -/
theorem session_last_request_time_counterexample :
    (sessionRequest 1 5 ⟨none, none, 0, 10⟩ false).map
      (fun r => r.2.1.lastRequestTime) = some 0 ∧ (0 : Int) ≠ 5 := by
  constructor
  · rfl
  · decide

/-- **C3 amended.** A `request()` that does not trigger reauthentication
records `now` as `last_request_time` exactly when the HTTP call returns
without a transport exception; on the `NetworkError` path the session
state — `last_request_time` included — is unchanged.  (On a request that
did reauthenticate, `authenticate` itself has already recorded `now`
before the HTTP call.) -/
theorem session_last_request_time_spec (now : Int) (st : SessState) (fuel : Nat)
    (hne : |now - st.lastRequestTime| < st.sessionTimeout * 60) :
    sessionRequest (fuel + 1) now st true =
      some ([], { st with lastRequestTime := now }, true) ∧
    sessionRequest (fuel + 1) now st false = some ([], st, false) := by
  constructor
  · rw [sessionRequest, if_neg (not_le.mpr hne)]
    rfl
  · rw [sessionRequest, if_neg (not_le.mpr hne)]
    rfl

/-- Witness for `session_last_request_time_spec`: 5 seconds elapsed on a
10-minute timeout, failing HTTP call, state unchanged. -/
theorem session_last_request_time_spec_witness :
    sessionRequest 1 5 ⟨none, none, 0, 10⟩ false =
      some ([], ⟨none, none, 0, 10⟩, false) :=
  (session_last_request_time_spec 5 ⟨none, none, 0, 10⟩ 0 (by decide)).2

/-! ### Claim theorems about `assign_to_portfolio` -/

/-- **C4 counterexample.** Requesting portfolio "Foo" and receiving a
JSON-success response naming "Bar" makes `assign_to_portfolio` raise a
`LendingClubError` (lines 313-315 of `lendingclub/__init__.py`); it does
not complete normally and does not return `True` as the claim states. -/
theorem assign_portfolio_mismatch_counterexample :
    assignToPortfolio "Foo" [] ⟨true, some "Bar"⟩ =
      .error (.lendingClubError "Added order to a different portfolio") ∧
    ¬ assignToPortfolio "Foo" [] ⟨true, some "Bar"⟩ = .ok true := by
  constructor
  · rfl
  · intro h
    exact Except.noConfusion h

/-- **C4 amended.** When the bucket-assignment response reports JSON
success but names a portfolio different from the requested one,
`assign_to_portfolio` raises a `LendingClubError` — the anomaly is fatal
in this version, not a warning; the call returns `True` exactly when the
response reports success and its `portfolioName`, when present, equals
the requested name. -/
theorem assign_portfolio_spec (portfolioName : String) (existing : List String)
    (resp : AssignResponse) :
    (assignToPortfolio portfolioName existing resp = .ok true ↔
      resp.success = true ∧ ∀ n, resp.portfolioName = some n → n = portfolioName) ∧
    (∀ n, resp.portfolioName = some n → n ≠ portfolioName → resp.success = true →
      assignToPortfolio portfolioName existing resp =
        .error (.lendingClubError "Added order to a different portfolio")) := by
  obtain ⟨s, pn⟩ := resp
  constructor
  · cases s
    · simp [assignToPortfolio]
    · cases pn with
      | none => simp [assignToPortfolio]
      | some n =>
        by_cases hn : n = portfolioName
        · simp [assignToPortfolio, hn]
        · simp [assignToPortfolio, hn]
  · intro n hpn hne hs
    cases hpn
    simp only [] at hs
    subst hs
    simp [assignToPortfolio, hne]

/-- Witness for `assign_portfolio_spec`: requesting "Foo", the server
names "Bar" on a success response, and the call raises. -/
theorem assign_portfolio_spec_witness :
    assignToPortfolio "Foo" [] ⟨true, some "Bar"⟩ =
      .error (.lendingClubError "Added order to a different portfolio") :=
  (assign_portfolio_spec "Foo" [] ⟨true, some "Bar"⟩).2 "Bar" rfl (by decide) rfl


/-! ### Claim theorems about the `build_portfolio` selection rule -/

theorem maxQualifying_min_le (l : List ℚ) (minP m : ℚ)
    (h : maxQualifying l minP = some m) : minP ≤ m := by
  induction l with
  | nil => simp [maxQualifying] at h
  | cons p rest ih =>
    rw [maxQualifying] at h
    by_cases hp : minP ≤ p
    · rw [if_pos hp] at h
      cases hmr : maxQualifying rest minP with
      | none => rw [hmr] at h; cases h; exact hp
      | some q =>
        rw [hmr] at h
        cases h
        exact le_trans hp (le_max_left _ _)
    · rw [if_neg hp] at h
      exact ih h

theorem scanBest_some (scanned : List ℚ) (minP : ℚ) (i j : Nat) (q : ℚ)
    (hq : minP ≤ q) :
    scanBest scanned minP i (some (j, q)) =
      match maxQualifying scanned minP with
      | none => some (j, q)
      | some m => if q < m then some (i + firstIdxOf scanned m, m) else some (j, q) := by
  induction scanned generalizing i j q with
  | nil => simp [scanBest, maxQualifying]
  | cons p rest ih =>
    rw [scanBest, maxQualifying]
    by_cases hs : minP ≤ p ∧ q < p
    · rw [if_pos hs, ih _ _ _ hs.1, if_pos hs.1]
      cases hmr : maxQualifying rest minP with
      | none =>
        have hpq : q < p := hs.2
        simp [firstIdxOf, hpq]
      | some m =>
        have hm : minP ≤ m := maxQualifying_min_le rest minP m hmr
        by_cases hpm : p < m
        · have h2 : max p m = m := max_eq_right (le_of_lt hpm)
          have h3 : p ≠ m := ne_of_lt hpm
          have hqm : q < m := lt_trans hs.2 hpm
          simp only [h2, hpm, if_pos hqm, firstIdxOf, if_neg h3]
          simp
          omega
        · have h2 : max p m = p := max_eq_left (not_lt.mp hpm)
          simp only [h2, hpm, if_pos hs.2, firstIdxOf, if_pos rfl]
          simp [hs.2]
    · rw [if_neg hs, ih _ _ _ hq]
      by_cases hp : minP ≤ p
      · have hqp : ¬ q < p := fun hc => hs ⟨hp, hc⟩
        rw [if_pos hp]
        cases hmr : maxQualifying rest minP with
        | none => simp [hqp]
        | some m =>
          have hpq : p ≤ q := not_lt.mp hqp
          by_cases hqm : q < m
          · have h2 : max p m = m := max_eq_right (le_of_lt (lt_of_le_of_lt hpq hqm))
            have h3 : p ≠ m := ne_of_lt (lt_of_le_of_lt hpq hqm)
            simp only [h2, if_pos hqm, firstIdxOf, if_neg h3]
            simp
            omega
          · have h2 : ¬ q < max p m := by
              rw [not_lt, max_le_iff]
              exact ⟨hpq, not_lt.mp hqm⟩
            simp only [if_neg hqm, if_neg h2]
      · rw [if_neg hp]
        cases hmr : maxQualifying rest minP with
        | none => rfl
        | some m =>
          have hm : minP ≤ m := maxQualifying_min_le rest minP m hmr
          have h3 : p ≠ m := by
            intro hc
            exact hp (hc ▸ hm)
          by_cases hqm : q < m
          · simp only [if_pos hqm, firstIdxOf, if_neg h3]
            simp
            omega
          · simp only [if_neg hqm]

theorem scanBest_none (scanned : List ℚ) (minP : ℚ) (i : Nat) :
    scanBest scanned minP i none =
      match maxQualifying scanned minP with
      | none => none
      | some m => some (i + firstIdxOf scanned m, m) := by
  induction scanned generalizing i with
  | nil => simp [scanBest, maxQualifying]
  | cons p rest ih =>
    rw [scanBest, maxQualifying]
    by_cases hp : minP ≤ p
    · rw [if_pos hp, if_pos hp, scanBest_some rest minP (i + 1) i p hp]
      cases hmr : maxQualifying rest minP with
      | none => simp [firstIdxOf]
      | some m =>
        by_cases hpm : p < m
        · have h2 : max p m = m := max_eq_right (le_of_lt hpm)
          have h3 : p ≠ m := ne_of_lt hpm
          simp only [h2, if_pos hpm, firstIdxOf, if_neg h3]
          simp
          omega
        · have h2 : max p m = p := max_eq_left (not_lt.mp hpm)
          simp only [h2, if_neg hpm, firstIdxOf, if_pos rfl]
          simp
    · rw [if_neg hp, if_neg hp, ih]
      cases hmr : maxQualifying rest minP with
      | none => rfl
      | some m =>
        have hm : minP ≤ m := maxQualifying_min_le rest minP m hmr
        have h3 : p ≠ m := by
          intro hc
          exact hp (hc ▸ hm)
        simp only [firstIdxOf, if_neg h3]
        simp
        omega

theorem chooseOptionLoop_cons_none (p : ℚ) (rest : List ℚ) (minP maxP : ℚ) (i : Nat) :
    chooseOptionLoop (p :: rest) minP maxP i none =
      if p = maxP then some (i, p)
      else if p > maxP then none
      else if minP ≤ p then chooseOptionLoop rest minP maxP (i + 1) (some (i, p))
      else chooseOptionLoop rest minP maxP (i + 1) none := rfl

theorem chooseOptionLoop_cons_some (p : ℚ) (rest : List ℚ) (minP maxP : ℚ) (i j : Nat) (q : ℚ) :
    chooseOptionLoop (p :: rest) minP maxP i (some (j, q)) =
      if p = maxP then some (i, p)
      else if p > maxP then some (j, q)
      else if minP ≤ p ∧ q < p then chooseOptionLoop rest minP maxP (i + 1) (some (i, p))
      else chooseOptionLoop rest minP maxP (i + 1) (some (j, q)) := rfl

theorem chooseOptionLoop_eq (l : List ℚ) (minP maxP : ℚ) (i : Nat)
    (best : Option (Nat × ℚ)) :
    chooseOptionLoop l minP maxP i best =
      (match l[(l.takeWhile (fun p => decide (p < maxP))).length]? with
       | some p =>
         if p = maxP then
           some (i + (l.takeWhile (fun p => decide (p < maxP))).length, p)
         else scanBest (l.takeWhile (fun p => decide (p < maxP))) minP i best
       | none => scanBest (l.takeWhile (fun p => decide (p < maxP))) minP i best) := by
  induction l generalizing i best with
  | nil => simp [chooseOptionLoop, scanBest]
  | cons p rest ih =>
    by_cases h1 : p = maxP
    · subst h1
      have hL : chooseOptionLoop (p :: rest) minP p i best = some (i, p) := by
        cases best with
        | none => rw [chooseOptionLoop_cons_none, if_pos rfl]
        | some jq =>
          obtain ⟨j, q⟩ := jq
          rw [chooseOptionLoop_cons_some, if_pos rfl]
      rw [hL]
      have ht : (p :: rest).takeWhile (fun x => decide (x < p)) = [] := by
        simp [List.takeWhile_cons]
      rw [ht]
      simp
    · by_cases h2 : p > maxP
      · have hL : chooseOptionLoop (p :: rest) minP maxP i best = best := by
          cases best with
          | none => rw [chooseOptionLoop_cons_none, if_neg h1, if_pos h2]
          | some jq =>
            obtain ⟨j, q⟩ := jq
            rw [chooseOptionLoop_cons_some, if_neg h1, if_pos h2]
        rw [hL]
        have ht : ((p :: rest).takeWhile (fun x => decide (x < maxP))) = [] := by
          simp [List.takeWhile_cons, not_lt.mpr (le_of_lt h2)]
        rw [ht]
        simp [scanBest, h1]
      · have hlt : p < maxP := lt_of_le_of_ne (not_lt.mp h2) h1
        have ht : ((p :: rest).takeWhile (fun x => decide (x < maxP))) =
            p :: rest.takeWhile (fun x => decide (x < maxP)) := by
          simp [List.takeWhile_cons, hlt]
        rw [ht]
        have hget : (p :: rest)[(p :: rest.takeWhile (fun x => decide (x < maxP))).length]? =
            rest[(rest.takeWhile (fun x => decide (x < maxP))).length]? := by
          simp
        rw [hget]
        cases best with
        | none =>
          by_cases hp : minP ≤ p
          · rw [chooseOptionLoop_cons_none, if_neg h1, if_neg h2, if_pos hp, ih]
            have hsb : scanBest (p :: rest.takeWhile (fun x => decide (x < maxP))) minP i none =
                scanBest (rest.takeWhile (fun x => decide (x < maxP))) minP (i + 1) (some (i, p)) := by
              rw [scanBest, if_pos hp]
            rw [hsb]
            cases rest[(rest.takeWhile (fun x => decide (x < maxP))).length]? with
            | none => rfl
            | some x =>
              by_cases hx : x = maxP
              · simp [hx]
                omega
              · simp [hx]
          · rw [chooseOptionLoop_cons_none, if_neg h1, if_neg h2, if_neg hp, ih]
            have hsb : scanBest (p :: rest.takeWhile (fun x => decide (x < maxP))) minP i none =
                scanBest (rest.takeWhile (fun x => decide (x < maxP))) minP (i + 1) none := by
              rw [scanBest, if_neg hp]
            rw [hsb]
            cases rest[(rest.takeWhile (fun x => decide (x < maxP))).length]? with
            | none => rfl
            | some x =>
              by_cases hx : x = maxP
              · simp [hx]
                omega
              · simp [hx]
        | some jq =>
          obtain ⟨j, q⟩ := jq
          by_cases hs : minP ≤ p ∧ q < p
          · rw [chooseOptionLoop_cons_some, if_neg h1, if_neg h2, if_pos hs, ih]
            have hsb : scanBest (p :: rest.takeWhile (fun x => decide (x < maxP))) minP i (some (j, q)) =
                scanBest (rest.takeWhile (fun x => decide (x < maxP))) minP (i + 1) (some (i, p)) := by
              rw [scanBest, if_pos hs]
            rw [hsb]
            cases rest[(rest.takeWhile (fun x => decide (x < maxP))).length]? with
            | none => rfl
            | some x =>
              by_cases hx : x = maxP
              · simp [hx]
                omega
              · simp [hx]
          · rw [chooseOptionLoop_cons_some, if_neg h1, if_neg h2, if_neg hs, ih]
            have hsb : scanBest (p :: rest.takeWhile (fun x => decide (x < maxP))) minP i (some (j, q)) =
                scanBest (rest.takeWhile (fun x => decide (x < maxP))) minP (i + 1) (some (j, q)) := by
              rw [scanBest, if_neg hs]
            rw [hsb]
            cases rest[(rest.takeWhile (fun x => decide (x < maxP))).length]? with
            | none => rfl
            | some x =>
              by_cases hx : x = maxP
              · simp [hx]
                omega
              · simp [hx]

theorem choose_option_refines (options : List ℚ) (minP maxP : ℚ) :
    chooseOption options minP maxP = chooseOptionSpec options minP maxP := by
  rw [chooseOption, chooseOptionSpec, chooseOptionLoop_eq, scanBest_none]
  cases options[(options.takeWhile (fun p => decide (p < maxP))).length]? with
  | none =>
    cases maxQualifying (options.takeWhile (fun p => decide (p < maxP))) minP with
    | none => rfl
    | some m => simp
  | some x =>
    by_cases hx : x = maxP
    · simp [hx]
    · cases maxQualifying (options.takeWhile (fun p => decide (p < maxP))) minP with
      | none => simp [hx]
      | some m => simp [hx]

/-- **C6.** Over the ordered option list, `build_portfolio` selects the
first option whose percentage equals `max_percent`, stopping immediately;
otherwise it stops scanning at the first option above `max_percent` and
selects, among the scanned options with percentage ≥ `min_percent`, the
(first) one with the highest percentage, reporting no portfolio found
(`False`/`none`) when nothing qualifies.  For percentages [9,12,15,18]
and band [10,16] it selects 15 (index 2); for band [15,15] it selects 15
by perfect match. -/
theorem build_portfolio_selection (options : List ℚ) (minP maxP : ℚ) :
    chooseOption options minP maxP = chooseOptionSpec options minP maxP ∧
    chooseOption [9, 12, 15, 18] 10 16 = some (2, 15) ∧
    chooseOption [9, 12, 15, 18] 15 15 = some (2, 15) :=
  ⟨choose_option_refines options minP maxP, by decide, by decide⟩

/-! ### Claim theorems about `Filter` normalization -/

theorem normalizeProgress_eq (v : Int) :
    normalizeProgress v =
      if v % 10 < 5 ∨ (v % 10 = 5 ∧ v < 0) then v - v % 10 else v - v % 10 + 10 := by
  simp only [normalizeProgress, roundHalfAwayDiv10]
  split_ifs <;> omega

theorem gradesInvariant_normalizeGrades (gr : Grades) :
    gradesInvariant (normalizeGrades gr) := by
  unfold gradesInvariant normalizeGrades
  split_ifs with h
  · intro _
    rfl
  · intro hany
    cases hall : gr.all with
    | false => rfl
    | true => exact absurd ⟨hall, hany⟩ h

/-- **C8.** After construction and after every access or mutation through
the `Filter` interface, the configuration is normalized: if any
individual grade A-G is true then `All` is false, and `funding_progress`
is a multiple of 10 at minimal distance from the value that was set
(56 ↦ 60, 63 ↦ 60, 67 ↦ 70, 90 ↦ 90). -/
theorem filter_normalization_invariant (cfg : FilterCfg) (w : FilterWrite) (v : Int) :
    gradesInvariant (mkFilter cfg).grades ∧
    gradesInvariant (setItem cfg w).grades ∧
    gradesInvariant (getItemState cfg).grades ∧
    (setItem cfg (.fundingProgressKey v)).fundingProgress % 10 = 0 ∧
    (∀ m : Int, m % 10 = 0 →
      |(setItem cfg (.fundingProgressKey v)).fundingProgress - v| ≤ |m - v|) ∧
    normalizeProgress 56 = 60 ∧ normalizeProgress 63 = 60 ∧
    normalizeProgress 67 = 70 ∧ normalizeProgress 90 = 90 := by
  have hfp : (setItem cfg (.fundingProgressKey v)).fundingProgress = normalizeProgress v :=
    rfl
  refine ⟨gradesInvariant_normalizeGrades _, gradesInvariant_normalizeGrades _,
    gradesInvariant_normalizeGrades _, ?_, ?_, by decide, by decide, by decide, by decide⟩
  · rw [hfp, normalizeProgress_eq]
    split_ifs <;> omega
  · intro m hm
    rw [hfp, normalizeProgress_eq]
    rcases abs_cases (m - v) with ⟨hb, hb2⟩ | ⟨hb, hb2⟩ <;>
      rw [hb, abs_le] <;> split_ifs with hc <;> constructor <;> omega

/-- Witness for `filter_normalization_invariant`: on the default filter,
setting `funding_progress` to 56 stores a value at distance at most
`|60 - 56|` from 56. -/
theorem filter_normalization_invariant_witness :
    |(setItem defaultFilter (.fundingProgressKey 56)).fundingProgress - 56| ≤
      |(60 : Int) - 56| :=
  (filter_normalization_invariant defaultFilter (.fundingProgressKey 56) 56).2.2.2.2.1
    60 (by decide)

/-! ### Claim theorems about `Filter.validate` -/

theorem validateFromPurpose_char (cfg : FilterCfg) (l : LoanRecord) :
    validateFromPurpose cfg l =
      if purposeOk cfg l = false then .error (.fv l "loan purpose") else .ok () := by
  unfold validateFromPurpose purposeOk
  cases cfg.loanPurpose with
  | none => simp
  | some purpose =>
    cases l.purpose with
    | none => simp
    | some p =>
      simp only []
      by_cases hall : (lookupPurpose purpose "All").getD false = true
      · simp [hall]
      · simp only [if_neg hall]
        cases hc : (purpose.map Prod.fst).contains p <;> simp [hc]

theorem validateFromExclude_char (cfg : FilterCfg) (l : LoanRecord) :
    validateFromExclude cfg l =
      if excludeOk cfg l = false then
        .error (.fv l "exclude loans you are invested in")
      else validateFromPurpose cfg l := by
  unfold validateFromExclude excludeOk
  cases he : cfg.excludeExisting <;> cases ha : l.alreadyInvestedIn <;> simp

theorem validateFromProgress_char (cfg : FilterCfg) (l : LoanRecord) :
    validateFromProgress cfg l =
      if progressOk cfg l = false then .error (.fv l "funding progress")
      else validateFromExclude cfg l := by
  unfold validateFromProgress progressOk
  by_cases h : (cfg.fundingProgress : ℚ) >
      (1 - l.loanUnfundedAmount / l.loanAmountRequested) * 100
  · simp [h, not_le.mpr h]
  · simp [h, not_lt.mp h]

theorem validateFromTerm_char (cfg : FilterCfg) (l : LoanRecord) :
    validateFromTerm cfg l =
      if termOk cfg l = false then .error (.fv l "loan term")
      else validateFromProgress cfg l := by
  unfold validateFromTerm termOk
  by_cases h36 : l.loanLength = 36
  · have h60 : ¬ l.loanLength = 60 := by omega
    cases hy : cfg.term.year3 <;> simp [h36, h60, hy]
  · by_cases h60 : l.loanLength = 60
    · cases hy : cfg.term.year5 <;> simp [h36, h60, hy]
    · simp [h36, h60]

theorem validateFromGrade_char (cfg : FilterCfg) (l : LoanRecord)
    (h : l.loanGrade.data ≠ []) :
    validateFromGrade cfg l =
      if gradeFacetOk cfg l = false then .error (.fv l "grade")
      else validateFromTerm cfg l := by
  unfold validateFromGrade gradeFacetOk
  cases hd : l.loanGrade.data with
  | nil => exact absurd hd h
  | cons c rest =>
    by_cases hall : cfg.grades.all = true
    · simp [hall]
    · by_cases hk : gradeKnown c = false
      · simp [hall, hk]
      · simp only [Bool.not_eq_false] at hk
        by_cases he : gradeEnabled cfg.grades c = false
        · simp [hall, hk, he]
        · simp only [Bool.not_eq_false] at he
          simp [hall, hk, he]

theorem validate_chain_char (cfg : FilterCfg) (l : LoanRecord)
    (h : l.loanGrade.data ≠ []) :
    validateFromGrade cfg l =
      (match (if gradeFacetOk cfg l = false then some "grade"
              else if termOk cfg l = false then some "loan term"
              else if progressOk cfg l = false then some "funding progress"
              else if excludeOk cfg l = false then
                some "exclude loans you are invested in"
              else if purposeOk cfg l = false then some "loan purpose"
              else none :
              Option String) with
       | some crit => .error (.fv l crit)
       | none => .ok ()) := by
  rw [validateFromGrade_char cfg l h, validateFromTerm_char, validateFromProgress_char,
    validateFromExclude_char, validateFromPurpose_char]
  by_cases h1 : gradeFacetOk cfg l = false
  · simp [h1]
  · by_cases h2 : termOk cfg l = false
    · simp [h1, h2]
    · by_cases h3 : progressOk cfg l = false
      · simp [h1, h2, h3]
      · by_cases h4 : excludeOk cfg l = false
        · simp [h1, h2, h3, h4]
        · by_cases h5 : purposeOk cfg l = false
          · simp [h1, h2, h3, h4, h5]
          · simp [h1, h2, h3, h4, h5]

theorem validateOne_char (cfg : FilterCfg) (l : LoanRecord)
    (h : l.loanGrade.data ≠ []) :
    validateOne cfg l =
      (match firstFailedFacet cfg l with
       | some crit => .error (.fv l crit)
       | none => .ok ()) := by
  have hL := validate_chain_char cfg l h
  unfold validateOne firstFailedFacet loanIdOk
  cases hid : cfg.loanId with
  | none => simpa using hL
  | some ids =>
    simp only []
    by_cases hmem : l.loanGUID ∈ ids
    · rw [if_pos hmem, hL]
      simp [hmem]
    · rw [if_neg hmem]
      simp [hmem]

theorem firstFailedFacet_none_iff (cfg : FilterCfg) (l : LoanRecord) :
    firstFailedFacet cfg l = none ↔ satisfiesAll cfg l = true := by
  unfold firstFailedFacet satisfiesAll
  split_ifs with h1 h2 h3 h4 h5 h6 <;> simp_all

/-- **C5.** `Filter.validate` returns `True` iff every record satisfies
every active facet; otherwise it raises a `FilterValidationError`
carrying the first offending record and, for that record, the first
failed facet in source check order; in particular the funded-progress
facet accepts a record iff the filter's `funding_progress` does not
exceed `(1 − unfunded/requested) × 100`.  (Records are assumed to carry a
non-empty grade string; on an empty one python raises `IndexError`
instead.) -/
theorem filter_validate_spec (cfg : FilterCfg) (records : List LoanRecord)
    (hg : ∀ l ∈ records, l.loanGrade.data ≠ []) :
    (validate cfg records = .ok true ↔
      ∀ l ∈ records, satisfiesAll cfg l = true) ∧
    (∀ e, validate cfg records = .error e →
      ∃ pre l post, records = pre ++ l :: post ∧
        (∀ p ∈ pre, satisfiesAll cfg p = true) ∧
        satisfiesAll cfg l = false ∧
        ∃ crit, firstFailedFacet cfg l = some crit ∧ e = .fv l crit) ∧
    (∀ l : LoanRecord, progressOk cfg l = true ↔
      (cfg.fundingProgress : ℚ) ≤
        (1 - l.loanUnfundedAmount / l.loanAmountRequested) * 100) := by
  refine ⟨?_, ?_, ?_⟩
  · induction records with
    | nil => simp [validate]
    | cons l rest ih =>
      have hgl : l.loanGrade.data ≠ [] := hg l (List.mem_cons_self l rest)
      have hgrest : ∀ p ∈ rest, p.loanGrade.data ≠ [] :=
        fun p hp => hg p (List.mem_cons_of_mem l hp)
      rw [validate, validateOne_char cfg l hgl]
      cases hff : firstFailedFacet cfg l with
      | some crit =>
        have hsat : satisfiesAll cfg l = false := by
          rcases hs : satisfiesAll cfg l with _ | _
          · rfl
          · exact absurd ((firstFailedFacet_none_iff cfg l).mpr hs) (by simp [hff])
        simp only []
        constructor
        · intro hc
          exact absurd hc (by simp)
        · intro hall
          exact absurd (hall l (List.mem_cons_self l rest)) (by simp [hsat])
      | none =>
        have hsat : satisfiesAll cfg l = true := (firstFailedFacet_none_iff cfg l).mp hff
        simp only []
        rw [ih hgrest]
        constructor
        · intro hrest p hp
          rcases List.mem_cons.mp hp with rfl | hp'
          · exact hsat
          · exact hrest p hp'
        · intro hall p hp
          exact hall p (List.mem_cons_of_mem l hp)
  · induction records with
    | nil =>
      intro e he
      simp [validate] at he
    | cons l rest ih =>
      intro e he
      have hgl : l.loanGrade.data ≠ [] := hg l (List.mem_cons_self l rest)
      have hgrest : ∀ p ∈ rest, p.loanGrade.data ≠ [] :=
        fun p hp => hg p (List.mem_cons_of_mem l hp)
      rw [validate, validateOne_char cfg l hgl] at he
      cases hff : firstFailedFacet cfg l with
      | some crit =>
        rw [hff] at he
        simp only [] at he
        have hsat : satisfiesAll cfg l = false := by
          rcases hs : satisfiesAll cfg l with _ | _
          · rfl
          · exact absurd ((firstFailedFacet_none_iff cfg l).mpr hs) (by simp [hff])
        refine ⟨[], l, rest, rfl, by simp, hsat, crit, hff, ?_⟩
        cases he
        rfl
      | none =>
        rw [hff] at he
        simp only [] at he
        have hsat : satisfiesAll cfg l = true := (firstFailedFacet_none_iff cfg l).mp hff
        obtain ⟨pre, l0, post, hsplit, hpre, hfail, crit, hffl, hcrit⟩ := ih hgrest e he
        refine ⟨l :: pre, l0, post, by rw [hsplit, List.cons_append], ?_, hfail, crit, hffl,
          hcrit⟩
        intro p hp
        rcases List.mem_cons.mp hp with rfl | hp'
        · exact hsat
        · exact hpre p hp'
  · intro l
    unfold progressOk
    simp

/-- Witness for `filter_validate_spec`: the default filter accepts a
concrete fully-valid B-grade record. -/
theorem filter_validate_spec_witness :
    validate defaultFilter [⟨"1", "B3", 36, 450, 5000, false, none⟩] = .ok true :=
  ((filter_validate_spec defaultFilter [⟨"1", "B3", 36, 450, 5000, false, none⟩]
      (by decide)).1).mpr (by
    intro l hl
    simp only [List.mem_singleton] at hl
    subst hl
    have hprog :
        progressOk defaultFilter ⟨"1", "B3", 36, 450, 5000, false, none⟩ = true := by
      unfold progressOk
      rw [decide_eq_true_eq]
      show ((0 : Int) : ℚ) ≤ (1 - 450 / 5000) * 100
      norm_num
    unfold satisfiesAll
    rw [hprog]
    decide)


/-! ### `Filter.search_string` cleanup theorems (C7) -/

theorem ws_not_punct {c : Char} (h : isPyWs c = true) : isPunct c = false := by
  simp [isPyWs] at h
  rcases h with ((((h | h) | h) | h) | h) | h <;> subst h <;> decide

theorem punct_not_ws {c : Char} (h : isPunct c = true) : isPyWs c = false := by
  simp [isPunct] at h
  rcases h with ((((h | h) | h) | h) | h) | h <;> subst h <;> decide

theorem bracket_punct {c : Char} (h : isBracketChar c = true) : isPunct c = true := by
  simp [isBracketChar] at h
  rcases h with ((h | h) | h) | h <;> subst h <;> decide

theorem close_punct {c : Char} (h : isClose c = true) : isPunct c = true := by
  simp [isClose] at h
  rcases h with h | h <;> subst h <;> decide

theorem close_ne_comma {c : Char} (h : isClose c = true) : c ≠ ',' := by
  simp [isClose] at h
  rcases h with h | h <;> subst h <;> decide

theorem ws_ne_comma {c : Char} (h : isPyWs c = true) : c ≠ ',' := by
  intro hc
  subst hc
  simp [isPyWs] at h

theorem nonpunct_ne_comma {c : Char} (h : isPunct c = false) : c ≠ ',' := by
  intro hc
  subst hc
  simp [isPunct] at h

theorem dropWhile_head_not_ws :
    ∀ (l : List Char) (d : Char),
      (List.dropWhile isPyWs l).head? = some d → isPyWs d = false := by
  intro l
  induction l with
  | nil => intro d h; simp [List.dropWhile] at h
  | cons c rest ih =>
    intro d h
    by_cases hc : isPyWs c
    · rw [List.dropWhile_cons_of_pos hc] at h
      exact ih d h
    · rw [List.dropWhile_cons_of_neg hc] at h
      simp at h
      subst h
      simpa using hc

theorem wsrun_dropWhile_append (run y : List Char) (h : ∀ x ∈ run, isPyWs x = true) :
    List.dropWhile isPyWs (run ++ y) = List.dropWhile isPyWs y := by
  induction run with
  | nil => simp
  | cons w run ih =>
    have hw : isPyWs w = true := h w (by simp)
    simp [List.dropWhile_cons_of_pos hw]
    exact ih fun x hx => h x (by simp [hx])

theorem leadWs_cons_ws {c : Char} (h : isPyWs c = true) (rest : List Char) :
    leadWs (c :: rest) = leadWs rest + 1 := by
  simp [leadWs, List.takeWhile_cons, h]

theorem leadWs_cons_not_ws {c : Char} (h : isPyWs c = false) (rest : List Char) :
    leadWs (c :: rest) = 0 := by
  simp [leadWs, List.takeWhile_cons, h]

theorem leadWs_eq_zero {l : List Char}
    (h : ∀ d, l.head? = some d → isPyWs d = false) : leadWs l = 0 := by
  cases l with
  | nil => rfl
  | cons c rest => exact leadWs_cons_not_ws (h c rfl) rest

theorem mem_takeWhile_ws (l : List Char) {x : Char}
    (h : x ∈ List.takeWhile isPyWs l) : isPyWs x = true := by
  induction l with
  | nil => simp [List.takeWhile] at h
  | cons c rest ih =>
    by_cases hc : isPyWs c
    · rw [List.takeWhile_cons_of_pos hc] at h
      rcases List.mem_cons.mp h with h | h
      · subst h; exact hc
      · exact ih h
    · rw [List.takeWhile_cons_of_neg hc] at h
      simp at h

theorem hasTripleWs_tail {c : Char} {rest : List Char}
    (h : hasTripleWs (c :: rest) = false) : hasTripleWs rest = false := by
  simp [hasTripleWs] at h
  exact h.2

theorem hasTripleWs_window {c : Char} {rest : List Char}
    (h : hasTripleWs (c :: rest) = false) (hc : isPyWs c = true) : leadWs rest ≤ 1 := by
  simp [hasTripleWs, hc] at h
  omega

theorem hasTripleWs_dropWhile {l : List Char} (h : hasTripleWs l = false) :
    hasTripleWs (List.dropWhile isPyWs l) = false := by
  induction l with
  | nil => simpa using h
  | cons c rest ih =>
    by_cases hc : isPyWs c
    · rw [List.dropWhile_cons_of_pos hc]
      exact ih (hasTripleWs_tail h)
    · rwa [List.dropWhile_cons_of_neg hc]

theorem hasDoubleComma_tail {c : Char} {rest : List Char}
    (h : hasDoubleComma (c :: rest) = false) : hasDoubleComma rest = false := by
  simp [hasDoubleComma] at h
  exact h.2

theorem hasDoubleComma_window {rest : List Char}
    (h : hasDoubleComma (',' :: rest) = false) :
    (List.dropWhile isPyWs rest).head? ≠ some ',' := by
  simp [hasDoubleComma] at h
  exact h.1

theorem hasDoubleComma_dropWhile {l : List Char} (h : hasDoubleComma l = false) :
    hasDoubleComma (List.dropWhile isPyWs l) = false := by
  induction l with
  | nil => simpa using h
  | cons c rest ih =>
    by_cases hc : isPyWs c
    · rw [List.dropWhile_cons_of_pos hc]
      exact ih (hasDoubleComma_tail h)
    · rwa [List.dropWhile_cons_of_neg hc]

theorem hasCommaBeforeClose_tail {c : Char} {rest : List Char}
    (h : hasCommaBeforeClose (c :: rest) = false) : hasCommaBeforeClose rest = false := by
  simp [hasCommaBeforeClose] at h
  exact h.2

theorem hasCommaBeforeClose_window {rest : List Char}
    (h : hasCommaBeforeClose (',' :: rest) = false) :
    (List.dropWhile isPyWs rest).head?.any isClose = false := by
  simp [hasCommaBeforeClose] at h
  exact h.1

theorem hasCommaBeforeClose_dropWhile {l : List Char} (h : hasCommaBeforeClose l = false) :
    hasCommaBeforeClose (List.dropWhile isPyWs l) = false := by
  induction l with
  | nil => simpa using h
  | cons c rest ih =>
    by_cases hc : isPyWs c
    · rw [List.dropWhile_cons_of_pos hc]
      exact ih (hasCommaBeforeClose_tail h)
    · rwa [List.dropWhile_cons_of_neg hc]

theorem hasCommaBeforeClose_cons_ne {c : Char} {rest : List Char} (hc : c ≠ ',')
    (h : hasCommaBeforeClose rest = false) : hasCommaBeforeClose (c :: rest) = false := by
  simp [hasCommaBeforeClose, hc, h]

theorem hasCommaBeforeClose_wsrun (run y : List Char)
    (h : ∀ x ∈ run, isPyWs x = true) :
    hasCommaBeforeClose (run ++ y) = hasCommaBeforeClose y := by
  induction run with
  | nil => rfl
  | cons w run ih =>
    have hw : isPyWs w = true := h w (by simp)
    have : hasCommaBeforeClose ((w :: run) ++ y) = hasCommaBeforeClose (run ++ y) := by
      simp [hasCommaBeforeClose, ws_ne_comma hw]
    rw [this]
    exact ih fun x hx => h x (by simp [hx])

theorem collapseWs_head {c : Char} {rest : List Char} (hd : isPyWs c = false) :
    collapseWs (c :: rest) = c :: collapseWs rest := by
  simp only [collapseWs]
  rw [if_neg (by simp [hd])]

theorem removeBracketSpace_head :
    ∀ (l : List Char), (removeBracketSpace l).head? = l.head?
  | [] => by rw [removeBracketSpace.eq_1]
  | [c] => by
      rw [removeBracketSpace.eq_3]
      split <;> rfl
  | c :: r :: rest2 => by
      rw [removeBracketSpace.eq_2]
      by_cases hb : isBracketChar c
      · rw [if_pos hb]
        by_cases hr : r = ','
        · rw [if_pos hr]
          cases hX : (List.dropWhile isPyWs rest2).head? with
          | none => rfl
          | some d =>
            simp only []
            split <;> rfl
        · rw [if_neg hr]
          cases hX : (List.dropWhile isPyWs (r :: rest2)).head? with
          | none => rfl
          | some d =>
            simp only []
            split <;> rfl
      · rw [if_neg hb]
        rfl

theorem removeNewlines_cons_nl (rest : List Char) :
    removeNewlines ('\n' :: rest) = removeNewlines rest := by
  simp [removeNewlines]

theorem removeNewlines_cons_ne {c : Char} (hc : c ≠ '\n') (rest : List Char) :
    removeNewlines (c :: rest) = c :: removeNewlines rest := by
  simp [removeNewlines, hc]

theorem collapseWs_cons_big {c : Char} {rest : List Char} (hc : isPyWs c = true)
    (h3 : 3 ≤ leadWs (c :: rest)) :
    collapseWs (c :: rest) = ' ' :: collapseWs (List.dropWhile isPyWs rest) := by
  simp only [leadWs] at h3
  simp only [collapseWs]
  rw [if_pos hc, if_pos h3]

theorem collapseWs_cons_small {c : Char} {rest : List Char} (hc : isPyWs c = true)
    (h3 : ¬ 3 ≤ leadWs (c :: rest)) :
    collapseWs (c :: rest) = c :: collapseWs rest := by
  simp only [leadWs] at h3
  simp only [collapseWs]
  rw [if_pos hc, if_neg h3]

theorem removeHangingCommas_cons_ne {c : Char} (hc : c ≠ ',') (rest : List Char) :
    removeHangingCommas (c :: rest) = c :: removeHangingCommas rest := by
  simp only [removeHangingCommas]
  rw [if_neg hc]

theorem removeHangingCommas_comma_close {rest : List Char} {d : Char}
    (hX : (List.dropWhile isPyWs rest).head? = some d) (hd : isClose d = true) :
    removeHangingCommas (',' :: rest) =
      d :: removeHangingCommas (List.dropWhile isPyWs rest).tail := by
  simp only [removeHangingCommas]
  rw [if_pos trivial, hX]
  simp only []
  rw [if_pos hd]

theorem removeHangingCommas_comma_notclose {rest : List Char} {d : Char}
    (hX : (List.dropWhile isPyWs rest).head? = some d) (hd : isClose d = false) :
    removeHangingCommas (',' :: rest) = ',' :: removeHangingCommas rest := by
  simp only [removeHangingCommas]
  rw [if_pos trivial, hX]
  simp only []
  rw [if_neg (by simp [hd])]

theorem removeHangingCommas_comma_none {rest : List Char}
    (hX : (List.dropWhile isPyWs rest).head? = none) :
    removeHangingCommas (',' :: rest) = ',' :: removeHangingCommas rest := by
  simp only [removeHangingCommas]
  rw [if_pos trivial, hX]

theorem removeBracketSpace_nil : removeBracketSpace [] = [] := by
  rw [removeBracketSpace.eq_1]

theorem removeBracketSpace_cons_nb {c : Char} (hc : isBracketChar c = false)
    (rest : List Char) :
    removeBracketSpace (c :: rest) = c :: removeBracketSpace rest := by
  cases rest with
  | nil =>
    rw [removeBracketSpace.eq_3, if_neg (by simp [hc])]
  | cons r rest2 =>
    rw [removeBracketSpace.eq_2, if_neg (by simp [hc])]

theorem removeBracketSpace_singleton (c : Char) : removeBracketSpace [c] = [c] := by
  rw [removeBracketSpace.eq_3]
  split <;> rw [removeBracketSpace.eq_1]

theorem removeBracketSpace_comma_b {c d : Char} {rest2 : List Char}
    (hc : isBracketChar c = true)
    (hX : (List.dropWhile isPyWs rest2).head? = some d) (hd : isBracketChar d = true) :
    removeBracketSpace (c :: ',' :: rest2) =
      c :: ',' :: d :: removeBracketSpace (List.dropWhile isPyWs rest2).tail := by
  rw [removeBracketSpace.eq_2, if_pos hc, if_pos rfl, hX]
  simp only []
  rw [if_pos hd]

theorem removeBracketSpace_comma_nb {c d : Char} {rest2 : List Char}
    (hc : isBracketChar c = true)
    (hX : (List.dropWhile isPyWs rest2).head? = some d) (hd : isBracketChar d = false) :
    removeBracketSpace (c :: ',' :: rest2) = c :: removeBracketSpace (',' :: rest2) := by
  rw [removeBracketSpace.eq_2, if_pos hc, if_pos rfl, hX]
  simp only []
  rw [if_neg (by simp [hd])]

theorem removeBracketSpace_comma_none {c : Char} {rest2 : List Char}
    (hc : isBracketChar c = true)
    (hX : (List.dropWhile isPyWs rest2).head? = none) :
    removeBracketSpace (c :: ',' :: rest2) = c :: removeBracketSpace (',' :: rest2) := by
  rw [removeBracketSpace.eq_2, if_pos hc, if_pos rfl, hX]

theorem removeBracketSpace_other_b {c r d : Char} {rest2 : List Char}
    (hc : isBracketChar c = true) (hr : r ≠ ',')
    (hX : (List.dropWhile isPyWs (r :: rest2)).head? = some d)
    (hd : isBracketChar d = true) :
    removeBracketSpace (c :: r :: rest2) =
      c :: d :: removeBracketSpace (List.dropWhile isPyWs (r :: rest2)).tail := by
  rw [removeBracketSpace.eq_2, if_pos hc, if_neg hr, hX]
  simp only []
  rw [if_pos hd]

theorem removeBracketSpace_other_nb {c r d : Char} {rest2 : List Char}
    (hc : isBracketChar c = true) (hr : r ≠ ',')
    (hX : (List.dropWhile isPyWs (r :: rest2)).head? = some d)
    (hd : isBracketChar d = false) :
    removeBracketSpace (c :: r :: rest2) = c :: removeBracketSpace (r :: rest2) := by
  rw [removeBracketSpace.eq_2, if_pos hc, if_neg hr, hX]
  simp only []
  rw [if_neg (by simp [hd])]

theorem removeBracketSpace_other_none {c r : Char} {rest2 : List Char}
    (hc : isBracketChar c = true) (hr : r ≠ ',')
    (hX : (List.dropWhile isPyWs (r :: rest2)).head? = none) :
    removeBracketSpace (c :: r :: rest2) = c :: removeBracketSpace (r :: rest2) := by
  rw [removeBracketSpace.eq_2, if_pos hc, if_neg hr, hX]

theorem removePunctSpace_cons_punct {c : Char} (hc : isPunct c = true)
    (rest : List Char) :
    removePunctSpace (c :: rest) = c :: removePunctSpace (List.dropWhile isPyWs rest) := by
  simp only [removePunctSpace]
  rw [if_pos hc]

theorem removePunctSpace_cons_other {c : Char} (hp : isPunct c = false)
    (hw : isPyWs c = false) (rest : List Char) :
    removePunctSpace (c :: rest) = c :: removePunctSpace rest := by
  simp only [removePunctSpace]
  rw [if_neg (by simp [hp]), if_neg (by simp [hw])]

theorem removePunctSpace_ws_punct {c d : Char} {rest : List Char}
    (hw : isPyWs c = true)
    (hX : (List.dropWhile isPyWs rest).head? = some d) (hd : isPunct d = true) :
    removePunctSpace (c :: rest) =
      d :: removePunctSpace (List.dropWhile isPyWs (List.dropWhile isPyWs rest).tail) := by
  simp only [removePunctSpace]
  rw [if_neg (by simp [ws_not_punct hw]), if_pos hw, hX]
  simp only []
  rw [if_pos hd]

theorem removePunctSpace_ws_nopunct {c d : Char} {rest : List Char}
    (hw : isPyWs c = true)
    (hX : (List.dropWhile isPyWs rest).head? = some d) (hd : isPunct d = false) :
    removePunctSpace (c :: rest) =
      (c :: List.takeWhile isPyWs rest) ++ removePunctSpace (List.dropWhile isPyWs rest) := by
  simp only [removePunctSpace]
  rw [if_neg (by simp [ws_not_punct hw]), if_pos hw, hX]
  simp only []
  rw [if_neg (by simp [hd])]

theorem removePunctSpace_ws_none {c : Char} {rest : List Char}
    (hw : isPyWs c = true)
    (hX : (List.dropWhile isPyWs rest).head? = none) :
    removePunctSpace (c :: rest) = c :: rest := by
  simp only [removePunctSpace]
  rw [if_neg (by simp [ws_not_punct hw]), if_pos hw, hX]

theorem removeHangingCommas_wsrun (run x : List Char)
    (h : ∀ a ∈ run, isPyWs a = true) :
    removeHangingCommas (run ++ x) = run ++ removeHangingCommas x := by
  induction run with
  | nil => rfl
  | cons w run ih =>
    have hw : isPyWs w = true := h w (by simp)
    rw [List.cons_append, removeHangingCommas_cons_ne (ws_ne_comma hw),
      ih fun a ha => h a (by simp [ha]), List.cons_append]

theorem removeBracketSpace_wsrun (run x : List Char)
    (h : ∀ a ∈ run, isPyWs a = true) :
    removeBracketSpace (run ++ x) = run ++ removeBracketSpace x := by
  induction run with
  | nil => rfl
  | cons w run ih =>
    have hw : isPyWs w = true := h w (by simp)
    have hb : isBracketChar w = false := by
      have := ws_not_punct hw
      cases hbc : isBracketChar w
      · rfl
      · rw [bracket_punct hbc] at this
        exact absurd this (by simp)
    rw [List.cons_append, removeBracketSpace_cons_nb hb,
      ih fun a ha => h a (by simp [ha]), List.cons_append]

theorem leadWs_wsrun_append (run y : List Char) (h : ∀ a ∈ run, isPyWs a = true) :
    leadWs (run ++ y) = run.length + leadWs y := by
  induction run with
  | nil => simp
  | cons w run ih =>
    have hw : isPyWs w = true := h w (by simp)
    rw [List.cons_append, leadWs_cons_ws hw, ih fun a ha => h a (by simp [ha])]
    simp
    omega

theorem leadWs_removePunctSpace_zero {l : List Char}
    (h : ∀ d, l.head? = some d → isPyWs d = false) :
    leadWs (removePunctSpace l) = 0 := by
  cases l with
  | nil => simp [removePunctSpace, leadWs]
  | cons c rest =>
    have hw : isPyWs c = false := h c rfl
    by_cases hp : isPunct c
    · rw [removePunctSpace_cons_punct hp]
      exact leadWs_cons_not_ws hw _
    · rw [removePunctSpace_cons_other (by simpa using hp) hw]
      exact leadWs_cons_not_ws hw _

theorem leadWs_collapseWs_zero {l : List Char}
    (h : ∀ d, l.head? = some d → isPyWs d = false) :
    leadWs (collapseWs l) = 0 := by
  cases l with
  | nil => simp [collapseWs, leadWs]
  | cons c rest =>
    have hw : isPyWs c = false := h c rfl
    rw [collapseWs_head hw]
    exact leadWs_cons_not_ws hw _

theorem leadWs_collapseWs_le : ∀ (l : List Char), leadWs (collapseWs l) ≤ leadWs l := by
  intro l
  induction l with
  | nil => simp [collapseWs]
  | cons c rest ih =>
    by_cases hc : isPyWs c
    · by_cases h3 : 3 ≤ leadWs (c :: rest)
      · rw [collapseWs_cons_big hc h3, leadWs_cons_ws (by decide)]
        have h0 : leadWs (collapseWs (List.dropWhile isPyWs rest)) = 0 :=
          leadWs_collapseWs_zero (dropWhile_head_not_ws rest)
        rw [h0, leadWs_cons_ws hc] at *
        omega
      · rw [collapseWs_cons_small hc h3, leadWs_cons_ws hc, leadWs_cons_ws hc]
        omega
    · have hcf : isPyWs c = false := by simpa using hc
      rw [collapseWs_head hcf, leadWs_cons_not_ws hcf, leadWs_cons_not_ws hcf]

theorem leadWs_removeHangingCommas_le :
    ∀ (l : List Char), leadWs (removeHangingCommas l) ≤ leadWs l := by
  intro l
  induction l with
  | nil => simp [removeHangingCommas]
  | cons c rest ih =>
    by_cases hc : c = ','
    · subst hc
      cases hX : (List.dropWhile isPyWs rest).head? with
      | none =>
        rw [removeHangingCommas_comma_none hX, leadWs_cons_not_ws (by decide),
          leadWs_cons_not_ws (by decide)]
      | some d =>
        by_cases hd : isClose d
        · rw [removeHangingCommas_comma_close hX hd,
            leadWs_cons_not_ws (punct_not_ws (close_punct hd))]
          omega
        · rw [removeHangingCommas_comma_notclose hX (by simpa using hd),
            leadWs_cons_not_ws (by decide), leadWs_cons_not_ws (by decide)]
    · rw [removeHangingCommas_cons_ne hc]
      by_cases hw : isPyWs c
      · rw [leadWs_cons_ws hw, leadWs_cons_ws hw]
        omega
      · have hwf : isPyWs c = false := by simpa using hw
        rw [leadWs_cons_not_ws hwf, leadWs_cons_not_ws hwf]

theorem leadWs_removeBracketSpace_le :
    ∀ (l : List Char), leadWs (removeBracketSpace l) ≤ leadWs l := by
  intro l
  induction l with
  | nil => simp [removeBracketSpace_nil]
  | cons c rest ih =>
    by_cases hb : isBracketChar c
    · have hwf : isPyWs c = false := punct_not_ws (bracket_punct hb)
      have h1 : (removeBracketSpace (c :: rest)).head? = some c :=
        removeBracketSpace_head (c :: rest)
      have h0 : leadWs (removeBracketSpace (c :: rest)) = 0 := by
        cases hY : removeBracketSpace (c :: rest) with
        | nil => rfl
        | cons y ys =>
          rw [hY] at h1
          simp at h1
          subst h1
          exact leadWs_cons_not_ws hwf ys
      rw [h0]
      omega
    · rw [removeBracketSpace_cons_nb (by simpa using hb)]
      by_cases hw : isPyWs c
      · rw [leadWs_cons_ws hw, leadWs_cons_ws hw]
        omega
      · have hwf : isPyWs c = false := by simpa using hw
        rw [leadWs_cons_not_ws hwf, leadWs_cons_not_ws hwf]

theorem tripleWs_collapseWs : ∀ (l : List Char), hasTripleWs (collapseWs l) = false
  | [] => by simp [collapseWs, hasTripleWs]
  | c :: rest => by
    by_cases hc : isPyWs c
    · by_cases h3 : 3 ≤ leadWs (c :: rest)
      · rw [collapseWs_cons_big hc h3]
        have h0 : leadWs (collapseWs (List.dropWhile isPyWs rest)) = 0 :=
          leadWs_collapseWs_zero (dropWhile_head_not_ws rest)
        have ih := tripleWs_collapseWs (List.dropWhile isPyWs rest)
        simp [hasTripleWs, h0, ih]
      · rw [collapseWs_cons_small hc h3]
        have ih := tripleWs_collapseWs rest
        have hlt : leadWs (collapseWs rest) ≤ leadWs rest := leadWs_collapseWs_le rest
        have hr : leadWs rest ≤ 1 := by
          rw [leadWs_cons_ws hc] at h3
          omega
        simp [hasTripleWs, ih, hc]
        omega
    · have hcf : isPyWs c = false := by simpa using hc
      rw [collapseWs_head hcf]
      have ih := tripleWs_collapseWs rest
      simp [hasTripleWs, ih, hcf]
termination_by l => l.length
decreasing_by
  all_goals
    first
    | (simp
       done)
    | exact Nat.lt_succ_of_le (List.dropWhile_sublist isPyWs).length_le
    | exact Nat.lt_succ_of_le (Nat.le_trans (List.tail_sublist _).length_le
        (List.dropWhile_sublist isPyWs).length_le)
    | exact Nat.lt_succ_of_le (Nat.le_succ_of_le (Nat.le_trans
        (List.tail_sublist _).length_le (List.dropWhile_sublist isPyWs).length_le))
    | exact Nat.lt_succ_of_le (Nat.le_trans (List.dropWhile_sublist isPyWs).length_le
        (Nat.le_trans (List.tail_sublist _).length_le
          (List.dropWhile_sublist isPyWs).length_le))

theorem tripleWs_removeHangingCommas :
    ∀ (l : List Char), hasTripleWs l = false →
      hasTripleWs (removeHangingCommas l) = false
  | [] => fun h => by simpa [removeHangingCommas] using h
  | c :: rest => fun h => by
    have hrest : hasTripleWs rest = false := hasTripleWs_tail h
    by_cases hc : c = ','
    · subst hc
      cases hX : (List.dropWhile isPyWs rest).head? with
      | none =>
        rw [removeHangingCommas_comma_none hX]
        have ih := tripleWs_removeHangingCommas rest hrest
        have hcw : isPyWs ',' = false := by decide
        simp [hasTripleWs, ih, hcw]
      | some d =>
        by_cases hd : isClose d
        · rw [removeHangingCommas_comma_close hX hd]
          have htail : hasTripleWs (List.dropWhile isPyWs rest).tail = false := by
            have h1 : hasTripleWs (List.dropWhile isPyWs rest) = false :=
              hasTripleWs_dropWhile hrest
            cases hY : List.dropWhile isPyWs rest with
            | nil => simp [hasTripleWs]
            | cons y ys =>
              rw [hY] at h1
              simpa using hasTripleWs_tail h1
          have ih := tripleWs_removeHangingCommas (List.dropWhile isPyWs rest).tail htail
          have hdw : isPyWs d = false := punct_not_ws (close_punct hd)
          simp [hasTripleWs, ih, hdw]
        · rw [removeHangingCommas_comma_notclose hX (by simpa using hd)]
          have ih := tripleWs_removeHangingCommas rest hrest
          have hcw : isPyWs ',' = false := by decide
          simp [hasTripleWs, ih, hcw]
    · rw [removeHangingCommas_cons_ne hc]
      have ih := tripleWs_removeHangingCommas rest hrest
      by_cases hw : isPyWs c
      · have hlw := leadWs_removeHangingCommas_le rest
        have hwin := hasTripleWs_window h hw
        simp [hasTripleWs, ih, hw]
        omega
      · simp [hasTripleWs, ih, hw]
termination_by l => l.length
decreasing_by
  all_goals
    first
    | (simp
       done)
    | exact Nat.lt_succ_of_le (List.dropWhile_sublist isPyWs).length_le
    | exact Nat.lt_succ_of_le (Nat.le_trans (List.tail_sublist _).length_le
        (List.dropWhile_sublist isPyWs).length_le)
    | exact Nat.lt_succ_of_le (Nat.le_succ_of_le (Nat.le_trans
        (List.tail_sublist _).length_le (List.dropWhile_sublist isPyWs).length_le))
    | exact Nat.lt_succ_of_le (Nat.le_trans (List.dropWhile_sublist isPyWs).length_le
        (Nat.le_trans (List.tail_sublist _).length_le
          (List.dropWhile_sublist isPyWs).length_le))

theorem hasTripleWs_dropWhile_tail {l : List Char} (h : hasTripleWs l = false) :
    hasTripleWs (List.dropWhile isPyWs l).tail = false := by
  have h1 := hasTripleWs_dropWhile h
  cases hY : List.dropWhile isPyWs l with
  | nil => simp [hasTripleWs]
  | cons y ys =>
    rw [hY] at h1
    simpa using hasTripleWs_tail h1

theorem tripleWs_removeBracketSpace :
    ∀ (l : List Char), hasTripleWs l = false →
      hasTripleWs (removeBracketSpace l) = false
  | [] => fun h => by simpa [removeBracketSpace_nil] using h
  | [c] => fun h => by
    rw [removeBracketSpace_singleton]
    exact h
  | c :: r :: rest2 => fun h => by
    have hrest : hasTripleWs (r :: rest2) = false := hasTripleWs_tail h
    by_cases hb : isBracketChar c
    · have hcw : isPyWs c = false := punct_not_ws (bracket_punct hb)
      by_cases hr : r = ','
      · subst hr
        cases hX : (List.dropWhile isPyWs rest2).head? with
        | none =>
          rw [removeBracketSpace_comma_none hb hX]
          have ih := tripleWs_removeBracketSpace (',' :: rest2) hrest
          simp [hasTripleWs, ih, hcw]
        | some d =>
          by_cases hd : isBracketChar d
          · rw [removeBracketSpace_comma_b hb hX hd]
            have hrest2 : hasTripleWs rest2 = false := hasTripleWs_tail hrest
            have htail : hasTripleWs (List.dropWhile isPyWs rest2).tail = false :=
              hasTripleWs_dropWhile_tail hrest2
            have ih := tripleWs_removeBracketSpace (List.dropWhile isPyWs rest2).tail htail
            have hdw : isPyWs d = false := punct_not_ws (bracket_punct hd)
            have hcomma : isPyWs ',' = false := by decide
            simp [hasTripleWs, ih, hcw, hdw, hcomma]
          · rw [removeBracketSpace_comma_nb hb hX (by simpa using hd)]
            have ih := tripleWs_removeBracketSpace (',' :: rest2) hrest
            simp [hasTripleWs, ih, hcw]
      · cases hX : (List.dropWhile isPyWs (r :: rest2)).head? with
        | none =>
          rw [removeBracketSpace_other_none hb hr hX]
          have ih := tripleWs_removeBracketSpace (r :: rest2) hrest
          simp [hasTripleWs, ih, hcw]
        | some d =>
          by_cases hd : isBracketChar d
          · rw [removeBracketSpace_other_b hb hr hX hd]
            have htail : hasTripleWs (List.dropWhile isPyWs (r :: rest2)).tail = false :=
              hasTripleWs_dropWhile_tail hrest
            have ih :=
              tripleWs_removeBracketSpace (List.dropWhile isPyWs (r :: rest2)).tail htail
            have hdw : isPyWs d = false := punct_not_ws (bracket_punct hd)
            simp [hasTripleWs, ih, hcw, hdw]
          · rw [removeBracketSpace_other_nb hb hr hX (by simpa using hd)]
            have ih := tripleWs_removeBracketSpace (r :: rest2) hrest
            simp [hasTripleWs, ih, hcw]
    · rw [removeBracketSpace_cons_nb (by simpa using hb)]
      have ih := tripleWs_removeBracketSpace (r :: rest2) hrest
      by_cases hw : isPyWs c
      · have hlw := leadWs_removeBracketSpace_le (r :: rest2)
        have hwin := hasTripleWs_window h hw
        simp [hasTripleWs, ih, hw]
        omega
      · simp [hasTripleWs, ih, hw]
termination_by l => l.length
decreasing_by
  all_goals
    first
    | (simp
       done)
    | exact Nat.lt_succ_of_le (List.dropWhile_sublist isPyWs).length_le
    | exact Nat.lt_succ_of_le (Nat.le_trans (List.tail_sublist _).length_le
        (List.dropWhile_sublist isPyWs).length_le)
    | exact Nat.lt_succ_of_le (Nat.le_succ_of_le (Nat.le_trans
        (List.tail_sublist _).length_le (List.dropWhile_sublist isPyWs).length_le))
    | exact Nat.lt_succ_of_le (Nat.le_trans (List.dropWhile_sublist isPyWs).length_le
        (Nat.le_trans (List.tail_sublist _).length_le
          (List.dropWhile_sublist isPyWs).length_le))

theorem tripleWs_removePunctSpace :
    ∀ (l : List Char), hasTripleWs l = false →
      hasTripleWs (removePunctSpace l) = false
  | [] => fun h => by simpa [removePunctSpace] using h
  | c :: rest => fun h => by
    have hrest : hasTripleWs rest = false := hasTripleWs_tail h
    by_cases hp : isPunct c
    · rw [removePunctSpace_cons_punct hp]
      have ih := tripleWs_removePunctSpace (List.dropWhile isPyWs rest)
        (hasTripleWs_dropWhile hrest)
      simp [hasTripleWs, ih, punct_not_ws hp]
    · by_cases hw : isPyWs c
      · cases hX : (List.dropWhile isPyWs rest).head? with
        | none =>
          rw [removePunctSpace_ws_none hw hX]
          exact h
        | some d =>
          by_cases hd : isPunct d
          · rw [removePunctSpace_ws_punct hw hX hd]
            have htail : hasTripleWs (List.dropWhile isPyWs rest).tail = false :=
              hasTripleWs_dropWhile_tail hrest
            have ih := tripleWs_removePunctSpace
              (List.dropWhile isPyWs (List.dropWhile isPyWs rest).tail)
              (hasTripleWs_dropWhile htail)
            simp [hasTripleWs, ih, punct_not_ws hd]
          · have hdf : isPunct d = false := by simpa using hd
            rw [removePunctSpace_ws_nopunct hw hX hdf]
            have hwin := hasTripleWs_window h hw
            have hX0 : leadWs (removePunctSpace (List.dropWhile isPyWs rest)) = 0 :=
              leadWs_removePunctSpace_zero (dropWhile_head_not_ws rest)
            have ih := tripleWs_removePunctSpace (List.dropWhile isPyWs rest)
              (hasTripleWs_dropWhile hrest)
            have hrun : (List.takeWhile isPyWs rest).length = leadWs rest := rfl
            cases hR : List.takeWhile isPyWs rest with
            | nil =>
              simp [hasTripleWs, ih, hX0, hw]
            | cons w ws2 =>
              have hwws : isPyWs w = true := mem_takeWhile_ws (rest) (by rw [hR]; simp)
              have hlen : ws2.length = 0 := by
                rw [hR] at hrun
                simp at hrun
                omega
              have hws2 : ws2 = [] := List.length_eq_zero.mp hlen
              subst hws2
              simp [hasTripleWs, ih, hX0, leadWs_cons_ws hwws, hw, hwws]
      · have hwf : isPyWs c = false := by simpa using hw
        rw [removePunctSpace_cons_other (by simpa using hp) hwf]
        have ih := tripleWs_removePunctSpace rest hrest
        simp [hasTripleWs, ih, hwf]
termination_by l => l.length
decreasing_by
  all_goals
    first
    | (simp
       done)
    | exact Nat.lt_succ_of_le (List.dropWhile_sublist isPyWs).length_le
    | exact Nat.lt_succ_of_le (Nat.le_trans (List.tail_sublist _).length_le
        (List.dropWhile_sublist isPyWs).length_le)
    | exact Nat.lt_succ_of_le (Nat.le_succ_of_le (Nat.le_trans
        (List.tail_sublist _).length_le (List.dropWhile_sublist isPyWs).length_le))
    | exact Nat.lt_succ_of_le (Nat.le_trans (List.dropWhile_sublist isPyWs).length_le
        (Nat.le_trans (List.tail_sublist _).length_le
          (List.dropWhile_sublist isPyWs).length_le))

theorem tripleWs_searchStringCleanup (l : List Char) :
    hasTripleWs (searchStringCleanup l) = false :=
  tripleWs_removePunctSpace _ (tripleWs_removeBracketSpace _
    (tripleWs_removeHangingCommas _ (tripleWs_collapseWs _)))

theorem takeWhile_space_le (l : List Char) :
    (List.takeWhile (fun x => x = ' ') l).length ≤ leadWs l := by
  induction l with
  | nil => simp [leadWs]
  | cons c rest ih =>
    by_cases hc : c = ' '
    · subst hc
      rw [List.takeWhile_cons_of_pos (by simp), leadWs_cons_ws (by decide)]
      simp
      omega
    · rw [List.takeWhile_cons_of_neg (by simpa using hc)]
      simp

theorem tripleSpace_of_tripleWs {l : List Char} (h : hasTripleWs l = false) :
    hasTripleSpace l = false := by
  induction l with
  | nil => rfl
  | cons c rest ih =>
    have ihr := ih (hasTripleWs_tail h)
    by_cases hc : c = ' '
    · subst hc
      have hwin := hasTripleWs_window h (by decide)
      have hsp := takeWhile_space_le rest
      simp [hasTripleSpace, ihr]
      omega
    · simp [hasTripleSpace, ihr, hc]

theorem not_mem_removeNewlines (l : List Char) : '\n' ∉ removeNewlines l := by
  induction l with
  | nil => simp [removeNewlines]
  | cons c rest ih =>
    by_cases hc : c = '\n'
    · subst hc
      rw [removeNewlines_cons_nl]
      exact ih
    · rw [removeNewlines_cons_ne hc]
      intro hmem
      rcases List.mem_cons.mp hmem with he | he
      · exact hc he.symm
      · exact ih he

theorem head?_dropWhile_mem {l : List Char} {d : Char}
    (hX : (List.dropWhile isPyWs l).head? = some d) : d ∈ l := by
  cases hY : List.dropWhile isPyWs l with
  | nil =>
    rw [hY] at hX
    simp at hX
  | cons y ys =>
    rw [hY] at hX
    simp at hX
    subst hX
    exact (@List.dropWhile_sublist Char (l) isPyWs).subset (by rw [hY]; simp)

theorem mem_dropWhile_tail {l : List Char} {x : Char}
    (hx : x ∈ (List.dropWhile isPyWs l).tail) : x ∈ l :=
  (@List.dropWhile_sublist Char (l) isPyWs).subset
    ((List.tail_sublist (List.dropWhile isPyWs l)).subset hx)

theorem mem_collapseWs :
    ∀ (l : List Char) (x : Char), x ∈ collapseWs l → x ∈ l ∨ x = ' '
  | [] => fun x hx => by simp [collapseWs] at hx
  | c :: rest => fun x hx => by
    by_cases hc : isPyWs c
    · by_cases h3 : 3 ≤ leadWs (c :: rest)
      · rw [collapseWs_cons_big hc h3] at hx
        rcases List.mem_cons.mp hx with he | he
        · exact Or.inr he
        · rcases mem_collapseWs (List.dropWhile isPyWs rest) x he with hm | hm
          · exact Or.inl (List.mem_cons_of_mem c
              ((@List.dropWhile_sublist Char (rest) isPyWs).subset hm))
          · exact Or.inr hm
      · rw [collapseWs_cons_small hc h3] at hx
        rcases List.mem_cons.mp hx with he | he
        · exact Or.inl (he ▸ List.mem_cons_self c rest)
        · rcases mem_collapseWs rest x he with hm | hm
          · exact Or.inl (List.mem_cons_of_mem c hm)
          · exact Or.inr hm
    · rw [collapseWs_head (by simpa using hc)] at hx
      rcases List.mem_cons.mp hx with he | he
      · exact Or.inl (he ▸ List.mem_cons_self c rest)
      · rcases mem_collapseWs rest x he with hm | hm
        · exact Or.inl (List.mem_cons_of_mem c hm)
        · exact Or.inr hm
termination_by l => l.length
decreasing_by
  all_goals
    first
    | (simp
       done)
    | exact Nat.lt_succ_of_le (List.dropWhile_sublist isPyWs).length_le
    | exact Nat.lt_succ_of_le (Nat.le_trans (List.tail_sublist _).length_le
        (List.dropWhile_sublist isPyWs).length_le)
    | exact Nat.lt_succ_of_le (Nat.le_succ_of_le (Nat.le_trans
        (List.tail_sublist _).length_le (List.dropWhile_sublist isPyWs).length_le))
    | exact Nat.lt_succ_of_le (Nat.le_trans (List.dropWhile_sublist isPyWs).length_le
        (Nat.le_trans (List.tail_sublist _).length_le
          (List.dropWhile_sublist isPyWs).length_le))

theorem mem_removeHangingCommas :
    ∀ (l : List Char) (x : Char), x ∈ removeHangingCommas l → x ∈ l
  | [] => fun x hx => by simp [removeHangingCommas] at hx
  | c :: rest => fun x hx => by
    by_cases hc : c = ','
    · subst hc
      cases hX : (List.dropWhile isPyWs rest).head? with
      | none =>
        rw [removeHangingCommas_comma_none hX] at hx
        rcases List.mem_cons.mp hx with he | he
        · exact he ▸ List.mem_cons_self _ rest
        · exact List.mem_cons_of_mem _ (mem_removeHangingCommas rest x he)
      | some d =>
        by_cases hd : isClose d
        · rw [removeHangingCommas_comma_close hX hd] at hx
          rcases List.mem_cons.mp hx with he | he
          · exact he ▸ List.mem_cons_of_mem _ (head?_dropWhile_mem hX)
          · exact List.mem_cons_of_mem _
              (mem_dropWhile_tail (mem_removeHangingCommas _ x he))
        · rw [removeHangingCommas_comma_notclose hX (by simpa using hd)] at hx
          rcases List.mem_cons.mp hx with he | he
          · exact he ▸ List.mem_cons_self _ rest
          · exact List.mem_cons_of_mem _ (mem_removeHangingCommas rest x he)
    · rw [removeHangingCommas_cons_ne hc] at hx
      rcases List.mem_cons.mp hx with he | he
      · exact he ▸ List.mem_cons_self _ rest
      · exact List.mem_cons_of_mem _ (mem_removeHangingCommas rest x he)
termination_by l => l.length
decreasing_by
  all_goals
    first
    | (simp
       done)
    | exact Nat.lt_succ_of_le (List.dropWhile_sublist isPyWs).length_le
    | exact Nat.lt_succ_of_le (Nat.le_trans (List.tail_sublist _).length_le
        (List.dropWhile_sublist isPyWs).length_le)
    | exact Nat.lt_succ_of_le (Nat.le_succ_of_le (Nat.le_trans
        (List.tail_sublist _).length_le (List.dropWhile_sublist isPyWs).length_le))
    | exact Nat.lt_succ_of_le (Nat.le_trans (List.dropWhile_sublist isPyWs).length_le
        (Nat.le_trans (List.tail_sublist _).length_le
          (List.dropWhile_sublist isPyWs).length_le))

theorem mem_removeBracketSpace :
    ∀ (l : List Char) (x : Char), x ∈ removeBracketSpace l → x ∈ l
  | [] => fun x hx => by simp [removeBracketSpace_nil] at hx
  | [c] => fun x hx => by
    rw [removeBracketSpace_singleton] at hx
    exact hx
  | c :: r :: rest2 => fun x hx => by
    by_cases hb : isBracketChar c
    · by_cases hr : r = ','
      · subst hr
        cases hX : (List.dropWhile isPyWs rest2).head? with
        | none =>
          rw [removeBracketSpace_comma_none hb hX] at hx
          rcases List.mem_cons.mp hx with he | he
          · exact he ▸ List.mem_cons_self _ _
          · exact List.mem_cons_of_mem _ (mem_removeBracketSpace _ x he)
        | some d =>
          by_cases hd : isBracketChar d
          · rw [removeBracketSpace_comma_b hb hX hd] at hx
            rcases List.mem_cons.mp hx with he | he
            · exact he ▸ List.mem_cons_self _ _
            · rcases List.mem_cons.mp he with he2 | he2
              · exact he2 ▸ List.mem_cons_of_mem _ (List.mem_cons_self _ _)
              · rcases List.mem_cons.mp he2 with he3 | he3
                · exact he3 ▸ List.mem_cons_of_mem _
                    (List.mem_cons_of_mem _ (head?_dropWhile_mem hX))
                · exact List.mem_cons_of_mem _ (List.mem_cons_of_mem _
                    (mem_dropWhile_tail (mem_removeBracketSpace _ x he3)))
          · rw [removeBracketSpace_comma_nb hb hX (by simpa using hd)] at hx
            rcases List.mem_cons.mp hx with he | he
            · exact he ▸ List.mem_cons_self _ _
            · exact List.mem_cons_of_mem _ (mem_removeBracketSpace _ x he)
      · cases hX : (List.dropWhile isPyWs (r :: rest2)).head? with
        | none =>
          rw [removeBracketSpace_other_none hb hr hX] at hx
          rcases List.mem_cons.mp hx with he | he
          · exact he ▸ List.mem_cons_self _ _
          · exact List.mem_cons_of_mem _ (mem_removeBracketSpace _ x he)
        | some d =>
          by_cases hd : isBracketChar d
          · rw [removeBracketSpace_other_b hb hr hX hd] at hx
            rcases List.mem_cons.mp hx with he | he
            · exact he ▸ List.mem_cons_self _ _
            · rcases List.mem_cons.mp he with he2 | he2
              · exact he2 ▸ List.mem_cons_of_mem _ (head?_dropWhile_mem hX)
              · exact List.mem_cons_of_mem _
                  (mem_dropWhile_tail (mem_removeBracketSpace _ x he2))
          · rw [removeBracketSpace_other_nb hb hr hX (by simpa using hd)] at hx
            rcases List.mem_cons.mp hx with he | he
            · exact he ▸ List.mem_cons_self _ _
            · exact List.mem_cons_of_mem _ (mem_removeBracketSpace _ x he)
    · rw [removeBracketSpace_cons_nb (by simpa using hb)] at hx
      rcases List.mem_cons.mp hx with he | he
      · exact he ▸ List.mem_cons_self _ _
      · exact List.mem_cons_of_mem _ (mem_removeBracketSpace _ x he)
termination_by l => l.length
decreasing_by
  all_goals
    first
    | (simp
       done)
    | exact Nat.lt_succ_of_le (List.dropWhile_sublist isPyWs).length_le
    | exact Nat.lt_succ_of_le (Nat.le_trans (List.tail_sublist _).length_le
        (List.dropWhile_sublist isPyWs).length_le)
    | exact Nat.lt_succ_of_le (Nat.le_succ_of_le (Nat.le_trans
        (List.tail_sublist _).length_le (List.dropWhile_sublist isPyWs).length_le))
    | exact Nat.lt_succ_of_le (Nat.le_trans (List.dropWhile_sublist isPyWs).length_le
        (Nat.le_trans (List.tail_sublist _).length_le
          (List.dropWhile_sublist isPyWs).length_le))

theorem mem_removePunctSpace :
    ∀ (l : List Char) (x : Char), x ∈ removePunctSpace l → x ∈ l
  | [] => fun x hx => by simp [removePunctSpace] at hx
  | c :: rest => fun x hx => by
    by_cases hp : isPunct c
    · rw [removePunctSpace_cons_punct hp] at hx
      rcases List.mem_cons.mp hx with he | he
      · exact he ▸ List.mem_cons_self _ rest
      · exact List.mem_cons_of_mem _
          ((@List.dropWhile_sublist Char (rest) isPyWs).subset
            (mem_removePunctSpace _ x he))
    · by_cases hw : isPyWs c
      · cases hX : (List.dropWhile isPyWs rest).head? with
        | none =>
          rw [removePunctSpace_ws_none hw hX] at hx
          exact hx
        | some d =>
          by_cases hd : isPunct d
          · rw [removePunctSpace_ws_punct hw hX hd] at hx
            rcases List.mem_cons.mp hx with he | he
            · exact he ▸ List.mem_cons_of_mem _ (head?_dropWhile_mem hX)
            · exact List.mem_cons_of_mem _ (mem_dropWhile_tail
                ((@List.dropWhile_sublist Char
                  (List.dropWhile isPyWs rest).tail isPyWs).subset
                    (mem_removePunctSpace _ x he)))
          · rw [removePunctSpace_ws_nopunct hw hX (by simpa using hd)] at hx
            rcases List.mem_append.mp hx with he | he
            · rcases List.mem_cons.mp he with he2 | he2
              · exact he2 ▸ List.mem_cons_self _ rest
              · exact List.mem_cons_of_mem _
                  ((@List.takeWhile_sublist Char (rest) isPyWs).subset he2)
            · exact List.mem_cons_of_mem _
                ((@List.dropWhile_sublist Char (rest) isPyWs).subset
                  (mem_removePunctSpace _ x he))
      · rw [removePunctSpace_cons_other (by simpa using hp) (by simpa using hw)] at hx
        rcases List.mem_cons.mp hx with he | he
        · exact he ▸ List.mem_cons_self _ rest
        · exact List.mem_cons_of_mem _ (mem_removePunctSpace rest x he)
termination_by l => l.length
decreasing_by
  all_goals
    first
    | (simp
       done)
    | exact Nat.lt_succ_of_le (List.dropWhile_sublist isPyWs).length_le
    | exact Nat.lt_succ_of_le (Nat.le_trans (List.tail_sublist _).length_le
        (List.dropWhile_sublist isPyWs).length_le)
    | exact Nat.lt_succ_of_le (Nat.le_succ_of_le (Nat.le_trans
        (List.tail_sublist _).length_le (List.dropWhile_sublist isPyWs).length_le))
    | exact Nat.lt_succ_of_le (Nat.le_trans (List.dropWhile_sublist isPyWs).length_le
        (Nat.le_trans (List.tail_sublist _).length_le
          (List.dropWhile_sublist isPyWs).length_le))

theorem no_newline_searchStringCleanup (l : List Char) :
    '\n' ∉ searchStringCleanup l := by
  intro hx
  have h1 := mem_removePunctSpace _ _ hx
  have h2 := mem_removeBracketSpace _ _ h1
  have h3 := mem_removeHangingCommas _ _ h2
  rcases mem_collapseWs _ _ h3 with hm | hm
  · exact not_mem_removeNewlines l hm
  · exact absurd hm (by decide)

theorem dropWhile_removeNewlines (x : List Char) :
    List.dropWhile isPyWs (removeNewlines x) =
      removeNewlines (List.dropWhile isPyWs x) := by
  induction x with
  | nil => simp [removeNewlines]
  | cons c rest ih =>
    by_cases hn : c = '\n'
    · subst hn
      rw [removeNewlines_cons_nl, List.dropWhile_cons_of_pos (by decide)]
      exact ih
    · rw [removeNewlines_cons_ne hn]
      by_cases hw : isPyWs c
      · rw [List.dropWhile_cons_of_pos hw, List.dropWhile_cons_of_pos hw]
        exact ih
      · rw [List.dropWhile_cons_of_neg hw, List.dropWhile_cons_of_neg hw,
          removeNewlines_cons_ne hn]

theorem removeNewlines_head {y : List Char}
    (h : ∀ d, y.head? = some d → isPyWs d = false) :
    (removeNewlines y).head? = y.head? := by
  cases y with
  | nil => rfl
  | cons c rest =>
    have hn : c ≠ '\n' := by
      intro he
      have := h c rfl
      rw [he] at this
      simp [isPyWs] at this
    rw [removeNewlines_cons_ne hn]
    rfl

theorem doubleComma_removeNewlines {l : List Char} (h : hasDoubleComma l = false) :
    hasDoubleComma (removeNewlines l) = false := by
  induction l with
  | nil => simpa [removeNewlines] using h
  | cons c rest ih =>
    have hrest := hasDoubleComma_tail h
    by_cases hn : c = '\n'
    · subst hn
      rw [removeNewlines_cons_nl]
      exact ih hrest
    · rw [removeNewlines_cons_ne hn]
      have hhead : (List.dropWhile isPyWs (removeNewlines rest)).head? =
          (List.dropWhile isPyWs rest).head? := by
        rw [dropWhile_removeNewlines rest,
          removeNewlines_head (dropWhile_head_not_ws rest)]
      by_cases hc : c = ','
      · subst hc
        have hwin := hasDoubleComma_window h
        simp [hasDoubleComma, ih hrest, hhead, hwin]
      · simp [hasDoubleComma, ih hrest, hc]

theorem dropWhile_head_collapseWs (x : List Char) :
    (List.dropWhile isPyWs (collapseWs x)).head? =
      (List.dropWhile isPyWs x).head? := by
  induction x with
  | nil => simp [collapseWs]
  | cons c rest ih =>
    by_cases hc : isPyWs c
    · by_cases h3 : 3 ≤ leadWs (c :: rest)
      · rw [collapseWs_cons_big hc h3, List.dropWhile_cons_of_pos (by decide),
          List.dropWhile_cons_of_pos hc]
        cases hX : List.dropWhile isPyWs rest with
        | nil => simp [collapseWs]
        | cons y ys =>
          have hy : isPyWs y = false :=
            dropWhile_head_not_ws rest y (by rw [hX]; rfl)
          rw [collapseWs_head hy, List.dropWhile_cons_of_neg (by simp [hy])]
          rfl
      · rw [collapseWs_cons_small hc h3, List.dropWhile_cons_of_pos hc,
          List.dropWhile_cons_of_pos hc]
        exact ih
    · rw [collapseWs_head (by simpa using hc), List.dropWhile_cons_of_neg hc,
        List.dropWhile_cons_of_neg hc]
      rfl

theorem doubleComma_collapseWs :
    ∀ (l : List Char), hasDoubleComma l = false →
      hasDoubleComma (collapseWs l) = false
  | [] => fun h => by simpa [collapseWs] using h
  | c :: rest => fun h => by
    have hrest := hasDoubleComma_tail h
    by_cases hc : isPyWs c
    · by_cases h3 : 3 ≤ leadWs (c :: rest)
      · rw [collapseWs_cons_big hc h3]
        have ih := doubleComma_collapseWs (List.dropWhile isPyWs rest)
          (hasDoubleComma_dropWhile hrest)
        simp [hasDoubleComma, ih]
      · rw [collapseWs_cons_small hc h3]
        have ih := doubleComma_collapseWs rest hrest
        simp [hasDoubleComma, ih, ws_ne_comma hc]
    · rw [collapseWs_head (by simpa using hc)]
      have ih := doubleComma_collapseWs rest hrest
      by_cases hcc : c = ','
      · subst hcc
        have hwin := hasDoubleComma_window h
        have hhead := dropWhile_head_collapseWs rest
        simp [hasDoubleComma, ih, hhead, hwin]
      · simp [hasDoubleComma, ih, hcc]
termination_by l => l.length
decreasing_by
  all_goals
    first
    | (simp
       done)
    | exact Nat.lt_succ_of_le (List.dropWhile_sublist isPyWs).length_le
    | exact Nat.lt_succ_of_le (Nat.le_trans (List.tail_sublist _).length_le
        (List.dropWhile_sublist isPyWs).length_le)
    | exact Nat.lt_succ_of_le (Nat.le_succ_of_le (Nat.le_trans
        (List.tail_sublist _).length_le (List.dropWhile_sublist isPyWs).length_le))
    | exact Nat.lt_succ_of_le (Nat.le_trans (List.dropWhile_sublist isPyWs).length_le
        (Nat.le_trans (List.tail_sublist _).length_le
          (List.dropWhile_sublist isPyWs).length_le))

theorem hasDoubleComma_dropWhile_tail {l : List Char} (h : hasDoubleComma l = false) :
    hasDoubleComma (List.dropWhile isPyWs l).tail = false := by
  have h1 := hasDoubleComma_dropWhile h
  cases hY : List.dropWhile isPyWs l with
  | nil => simp [hasDoubleComma]
  | cons y ys =>
    rw [hY] at h1
    simpa using hasDoubleComma_tail h1

theorem hasCommaBeforeClose_allws {l : List Char}
    (h : ∀ a ∈ l, isPyWs a = true) : hasCommaBeforeClose l = false := by
  have := hasCommaBeforeClose_wsrun l [] h
  simpa [hasCommaBeforeClose] using this

theorem commaBeforeClose_removeHangingCommas :
    ∀ (l : List Char), hasDoubleComma l = false →
      hasCommaBeforeClose (removeHangingCommas l) = false
  | [] => fun _ => by simp [removeHangingCommas, hasCommaBeforeClose]
  | c :: rest => fun h => by
    have hrest := hasDoubleComma_tail h
    by_cases hc : c = ','
    · subst hc
      cases hX : (List.dropWhile isPyWs rest).head? with
      | none =>
        rw [removeHangingCommas_comma_none hX]
        have hnil : List.dropWhile isPyWs rest = [] := by
          cases hY : List.dropWhile isPyWs rest with
          | nil => rfl
          | cons y ys =>
            rw [hY] at hX
            simp at hX
        have hall : ∀ a ∈ rest, isPyWs a = true := by
          intro a ha
          have hdecomp := List.takeWhile_append_dropWhile isPyWs rest
          rw [hnil, List.append_nil] at hdecomp
          exact mem_takeWhile_ws (rest) (by rw [hdecomp]; exact ha)
        have hRrest : removeHangingCommas rest = rest := by
          have h2 := removeHangingCommas_wsrun rest [] hall
          simpa [removeHangingCommas] using h2
        rw [hRrest]
        have hwany : (List.dropWhile isPyWs rest).head?.any isClose = false := by
          rw [hnil]
          rfl
        simp [hasCommaBeforeClose, hwany, hasCommaBeforeClose_allws hall]
      | some d =>
        by_cases hd : isClose d
        · rw [removeHangingCommas_comma_close hX hd]
          exact hasCommaBeforeClose_cons_ne (close_ne_comma hd)
            (commaBeforeClose_removeHangingCommas (List.dropWhile isPyWs rest).tail
              (hasDoubleComma_dropWhile_tail hrest))
        · rw [removeHangingCommas_comma_notclose hX (by simpa using hd)]
          have hwin := hasDoubleComma_window h
          have hdc : d ≠ ',' := by
            intro he
            exact hwin (he ▸ hX)
          have ih := commaBeforeClose_removeHangingCommas rest hrest
          have hdecomp := List.takeWhile_append_dropWhile isPyWs rest
          cases hY : List.dropWhile isPyWs rest with
          | nil =>
            rw [hY] at hX
            simp at hX
          | cons y ys =>
            have hyd : y = d := by
              rw [hY] at hX
              simpa using hX
            subst hyd
            rw [hY] at hdecomp
            have hRrest : removeHangingCommas rest =
                List.takeWhile isPyWs rest ++ (y :: removeHangingCommas ys) := by
              conv_lhs => rw [← hdecomp]
              rw [removeHangingCommas_wsrun _ _ fun a ha => mem_takeWhile_ws _ ha,
                removeHangingCommas_cons_ne hdc]
            have hyw : isPyWs y = false := dropWhile_head_not_ws rest y hX
            have hdrop : List.dropWhile isPyWs
                (List.takeWhile isPyWs rest ++ (y :: removeHangingCommas ys)) =
                y :: removeHangingCommas ys := by
              rw [wsrun_dropWhile_append _ _ fun a ha => mem_takeWhile_ws _ ha,
                List.dropWhile_cons_of_neg (by simp [hyw])]
            have ih2 : hasCommaBeforeClose
                (List.takeWhile isPyWs rest ++ (y :: removeHangingCommas ys)) = false :=
              hRrest ▸ ih
            rw [hRrest]
            simp [hasCommaBeforeClose, hdrop, ih2, (by simpa using hd : isClose y = false)]
    · rw [removeHangingCommas_cons_ne hc]
      exact hasCommaBeforeClose_cons_ne hc
        (commaBeforeClose_removeHangingCommas rest hrest)
termination_by l => l.length
decreasing_by
  all_goals
    first
    | (simp
       done)
    | exact Nat.lt_succ_of_le (List.dropWhile_sublist isPyWs).length_le
    | exact Nat.lt_succ_of_le (Nat.le_trans (List.tail_sublist _).length_le
        (List.dropWhile_sublist isPyWs).length_le)
    | exact Nat.lt_succ_of_le (Nat.le_succ_of_le (Nat.le_trans
        (List.tail_sublist _).length_le (List.dropWhile_sublist isPyWs).length_le))
    | exact Nat.lt_succ_of_le (Nat.le_trans (List.dropWhile_sublist isPyWs).length_le
        (Nat.le_trans (List.tail_sublist _).length_le
          (List.dropWhile_sublist isPyWs).length_le))

theorem bracket_ne_comma {c : Char} (h : isBracketChar c = true) : c ≠ ',' := by
  simp [isBracketChar] at h
  rcases h with ((h | h) | h) | h <;> subst h <;> decide

theorem hasCommaBeforeClose_dropWhile_tail {l : List Char}
    (h : hasCommaBeforeClose l = false) :
    hasCommaBeforeClose (List.dropWhile isPyWs l).tail = false := by
  have h1 := hasCommaBeforeClose_dropWhile h
  cases hY : List.dropWhile isPyWs l with
  | nil => simp [hasCommaBeforeClose]
  | cons y ys =>
    rw [hY] at h1
    simpa using hasCommaBeforeClose_tail h1

theorem removePunctSpace_head_not_ws {y : Char} (ys : List Char)
    (h : isPyWs y = false) : (removePunctSpace (y :: ys)).head? = some y := by
  by_cases hp : isPunct y
  · rw [removePunctSpace_cons_punct hp]
    rfl
  · rw [removePunctSpace_cons_other (by simpa using hp) h]
    rfl

theorem commaBeforeClose_removeBracketSpace :
    ∀ (l : List Char), hasCommaBeforeClose l = false →
      hasCommaBeforeClose (removeBracketSpace l) = false
  | [] => fun _ => by simp [removeBracketSpace_nil, hasCommaBeforeClose]
  | [c] => fun h => by
    rw [removeBracketSpace_singleton]
    exact h
  | c :: r :: rest2 => fun h => by
    have hrest : hasCommaBeforeClose (r :: rest2) = false := hasCommaBeforeClose_tail h
    by_cases hb : isBracketChar c
    · have hbc : c ≠ ',' := bracket_ne_comma hb
      by_cases hr : r = ','
      · subst hr
        cases hX : (List.dropWhile isPyWs rest2).head? with
        | none =>
          rw [removeBracketSpace_comma_none hb hX]
          exact hasCommaBeforeClose_cons_ne hbc
            (commaBeforeClose_removeBracketSpace (',' :: rest2) hrest)
        | some d =>
          by_cases hd : isBracketChar d
          · rw [removeBracketSpace_comma_b hb hX hd]
            have hdw : isPyWs d = false := punct_not_ws (bracket_punct hd)
            have hclose : isClose d = false := by
              have hw := hasCommaBeforeClose_window hrest
              rw [hX] at hw
              simpa using hw
            have ih := commaBeforeClose_removeBracketSpace
              (List.dropWhile isPyWs rest2).tail
              (hasCommaBeforeClose_dropWhile_tail (hasCommaBeforeClose_tail hrest))
            simp [hasCommaBeforeClose, hbc, bracket_ne_comma hd, ih,
              List.dropWhile_cons_of_neg (by simp [hdw] : ¬ isPyWs d = true), hclose]
          · rw [removeBracketSpace_comma_nb hb hX (by simpa using hd)]
            exact hasCommaBeforeClose_cons_ne hbc
              (commaBeforeClose_removeBracketSpace (',' :: rest2) hrest)
      · cases hX : (List.dropWhile isPyWs (r :: rest2)).head? with
        | none =>
          rw [removeBracketSpace_other_none hb hr hX]
          exact hasCommaBeforeClose_cons_ne hbc
            (commaBeforeClose_removeBracketSpace (r :: rest2) hrest)
        | some d =>
          by_cases hd : isBracketChar d
          · rw [removeBracketSpace_other_b hb hr hX hd]
            have ih := commaBeforeClose_removeBracketSpace
              (List.dropWhile isPyWs (r :: rest2)).tail
              (hasCommaBeforeClose_dropWhile_tail hrest)
            exact hasCommaBeforeClose_cons_ne hbc
              (hasCommaBeforeClose_cons_ne (bracket_ne_comma hd) ih)
          · rw [removeBracketSpace_other_nb hb hr hX (by simpa using hd)]
            exact hasCommaBeforeClose_cons_ne hbc
              (commaBeforeClose_removeBracketSpace (r :: rest2) hrest)
    · rw [removeBracketSpace_cons_nb (by simpa using hb)]
      have ih := commaBeforeClose_removeBracketSpace (r :: rest2) hrest
      by_cases hc : c = ','
      · subst hc
        have hwin := hasCommaBeforeClose_window h
        have hany : (List.dropWhile isPyWs (removeBracketSpace (r :: rest2))).head?.any
            isClose = false := by
          have hdecomp := List.takeWhile_append_dropWhile isPyWs (r :: rest2)
          cases hY : List.dropWhile isPyWs (r :: rest2) with
          | nil =>
            have hall : ∀ a ∈ (r :: rest2), isPyWs a = true := by
              intro a ha
              rw [hY, List.append_nil] at hdecomp
              exact mem_takeWhile_ws (r :: rest2) (by rw [hdecomp]; exact ha)
            have hBid : removeBracketSpace (r :: rest2) = r :: rest2 := by
              have h2 := removeBracketSpace_wsrun (r :: rest2) [] hall
              simpa [removeBracketSpace_nil] using h2
            rw [hBid, hY]
            rfl
          | cons y ys =>
            rw [hY] at hdecomp
            have hyw : isPyWs y = false :=
              dropWhile_head_not_ws (r :: rest2) y (by rw [hY]; rfl)
            have hB : removeBracketSpace (r :: rest2) =
                List.takeWhile isPyWs (r :: rest2) ++ removeBracketSpace (y :: ys) := by
              conv_lhs => rw [← hdecomp]
              rw [removeBracketSpace_wsrun _ _ fun a ha => mem_takeWhile_ws _ ha]
            have hhead : (removeBracketSpace (y :: ys)).head? = some y :=
              removeBracketSpace_head (y :: ys)
            have hclose : isClose y = false := by
              rw [hY] at hwin
              simpa using hwin
            rw [hB, wsrun_dropWhile_append _ _ fun a ha => mem_takeWhile_ws _ ha]
            cases hP : removeBracketSpace (y :: ys) with
            | nil =>
              rw [hP] at hhead
              simp at hhead
            | cons z zs =>
              rw [hP] at hhead
              simp at hhead
              subst hhead
              rw [List.dropWhile_cons_of_neg (by simp [hyw])]
              simp [hclose]
        simp [hasCommaBeforeClose, hany, ih]
      · exact hasCommaBeforeClose_cons_ne hc ih
termination_by l => l.length
decreasing_by
  all_goals
    first
    | (simp
       done)
    | exact Nat.lt_succ_of_le (List.dropWhile_sublist isPyWs).length_le
    | exact Nat.lt_succ_of_le (Nat.le_trans (List.tail_sublist _).length_le
        (List.dropWhile_sublist isPyWs).length_le)
    | exact Nat.lt_succ_of_le (Nat.le_succ_of_le (Nat.le_trans
        (List.tail_sublist _).length_le (List.dropWhile_sublist isPyWs).length_le))
    | exact Nat.lt_succ_of_le (Nat.le_trans (List.dropWhile_sublist isPyWs).length_le
        (Nat.le_trans (List.tail_sublist _).length_le
          (List.dropWhile_sublist isPyWs).length_le))

theorem commaBeforeClose_removePunctSpace :
    ∀ (l : List Char), hasCommaBeforeClose l = false →
      hasCommaBeforeClose (removePunctSpace l) = false
  | [] => fun _ => by simp [removePunctSpace, hasCommaBeforeClose]
  | c :: rest => fun h => by
    have hrest := hasCommaBeforeClose_tail h
    by_cases hp : isPunct c
    · rw [removePunctSpace_cons_punct hp]
      have ih := commaBeforeClose_removePunctSpace (List.dropWhile isPyWs rest)
        (hasCommaBeforeClose_dropWhile hrest)
      by_cases hc : c = ','
      · subst hc
        have hwin := hasCommaBeforeClose_window h
        have hany : (List.dropWhile isPyWs
            (removePunctSpace (List.dropWhile isPyWs rest))).head?.any isClose = false := by
          cases hY : List.dropWhile isPyWs rest with
          | nil => simp [removePunctSpace]
          | cons y ys =>
            have hyw : isPyWs y = false := dropWhile_head_not_ws rest y (by rw [hY]; rfl)
            have hclose : isClose y = false := by
              rw [hY] at hwin
              simpa using hwin
            have hhead := removePunctSpace_head_not_ws ys hyw
            cases hP : removePunctSpace (y :: ys) with
            | nil =>
              rw [hP] at hhead
              simp at hhead
            | cons z zs =>
              rw [hP] at hhead
              simp at hhead
              subst hhead
              rw [List.dropWhile_cons_of_neg (by simp [hyw])]
              simp [hclose]
        simp [hasCommaBeforeClose, hany, ih]
      · exact hasCommaBeforeClose_cons_ne hc ih
    · by_cases hw : isPyWs c
      · cases hX : (List.dropWhile isPyWs rest).head? with
        | none =>
          rw [removePunctSpace_ws_none hw hX]
          exact h
        | some d =>
          by_cases hd : isPunct d
          · rw [removePunctSpace_ws_punct hw hX hd]
            have ih := commaBeforeClose_removePunctSpace
              (List.dropWhile isPyWs (List.dropWhile isPyWs rest).tail)
              (hasCommaBeforeClose_dropWhile (hasCommaBeforeClose_dropWhile_tail hrest))
            by_cases hdc : d = ','
            · subst hdc
              have h1 : hasCommaBeforeClose (List.dropWhile isPyWs rest) = false :=
                hasCommaBeforeClose_dropWhile hrest
              cases hY : List.dropWhile isPyWs rest with
              | nil =>
                rw [hY] at hX
                simp at hX
              | cons y ys =>
                have hyd : y = ',' := by
                  rw [hY] at hX
                  simpa using hX
                subst hyd
                rw [hY] at h1
                have hwin2 := hasCommaBeforeClose_window h1
                have htail_eq : (List.dropWhile isPyWs rest).tail = ys := by
                  rw [hY]
                  rfl
                simp only [List.tail_cons]
                rw [htail_eq] at ih
                have hany : (List.dropWhile isPyWs
                    (removePunctSpace (List.dropWhile isPyWs ys))).head?.any
                      isClose = false := by
                  cases hZ : List.dropWhile isPyWs ys with
                  | nil => simp [removePunctSpace]
                  | cons z zs =>
                    have hzw : isPyWs z = false :=
                      dropWhile_head_not_ws ys z (by rw [hZ]; rfl)
                    have hzclose : isClose z = false := by
                      rw [hZ] at hwin2
                      simpa using hwin2
                    have hhead := removePunctSpace_head_not_ws zs hzw
                    cases hP : removePunctSpace (z :: zs) with
                    | nil =>
                      rw [hP] at hhead
                      simp at hhead
                    | cons w ws3 =>
                      rw [hP] at hhead
                      simp at hhead
                      subst hhead
                      rw [List.dropWhile_cons_of_neg (by simp [hzw])]
                      simp [hzclose]
                simp [hasCommaBeforeClose, hany, ih]
            · exact hasCommaBeforeClose_cons_ne hdc ih
          · rw [removePunctSpace_ws_nopunct hw hX (by simpa using hd)]
            have ih := commaBeforeClose_removePunctSpace (List.dropWhile isPyWs rest)
              (hasCommaBeforeClose_dropWhile hrest)
            have hall : ∀ a ∈ (c :: List.takeWhile isPyWs rest), isPyWs a = true := by
              intro a ha
              rcases List.mem_cons.mp ha with he | he
              · exact he ▸ hw
              · exact mem_takeWhile_ws _ he
            rw [hasCommaBeforeClose_wsrun _ _ hall]
            exact ih
      · have hwf : isPyWs c = false := by simpa using hw
        rw [removePunctSpace_cons_other (by simpa using hp) hwf]
        exact hasCommaBeforeClose_cons_ne (nonpunct_ne_comma (by simpa using hp))
          (commaBeforeClose_removePunctSpace rest hrest)
termination_by l => l.length
decreasing_by
  all_goals
    first
    | (simp
       done)
    | exact Nat.lt_succ_of_le (List.dropWhile_sublist isPyWs).length_le
    | exact Nat.lt_succ_of_le (Nat.le_trans (List.tail_sublist _).length_le
        (List.dropWhile_sublist isPyWs).length_le)
    | exact Nat.lt_succ_of_le (Nat.le_succ_of_le (Nat.le_trans
        (List.tail_sublist _).length_le (List.dropWhile_sublist isPyWs).length_le))
    | exact Nat.lt_succ_of_le (Nat.le_trans (List.dropWhile_sublist isPyWs).length_le
        (Nat.le_trans (List.tail_sublist _).length_le
          (List.dropWhile_sublist isPyWs).length_le))

theorem hasWsPunctAdj_wsrun (run y : List Char)
    (hrun : ∀ a ∈ run, isPyWs a = true)
    (hy : ∀ e, y.head? = some e → isPunct e = false) :
    hasWsPunctAdj (run ++ y) = hasWsPunctAdj y := by
  induction run with
  | nil => rfl
  | cons w run ih =>
    have hw := hrun w (by simp)
    have ihe := ih fun a ha => hrun a (by simp [ha])
    have hwin : ((run ++ y).head?.any fun d =>
        (isPyWs w && isPunct d) || (isPunct w && isPyWs d)) = false := by
      cases run with
      | nil =>
        simp only [List.nil_append]
        cases hz : y.head? with
        | none => rfl
        | some e => simp [ws_not_punct hw, hy e hz]
      | cons v run2 =>
        have hv := hrun v (by simp)
        simp [ws_not_punct hw, ws_not_punct hv]
    rw [List.cons_append]
    have hunf : hasWsPunctAdj (w :: (run ++ y)) =
        (((run ++ y).head?.any fun d =>
          (isPyWs w && isPunct d) || (isPunct w && isPyWs d)) ||
            hasWsPunctAdj (run ++ y)) := rfl
    rw [hunf, hwin, ihe, Bool.false_or]

theorem wsPunctAdj_removePunctSpace :
    ∀ (l : List Char), hasWsPunctAdj (removePunctSpace l) = false
  | [] => by simp [removePunctSpace, hasWsPunctAdj]
  | c :: rest => by
    by_cases hp : isPunct c
    · rw [removePunctSpace_cons_punct hp]
      have ih := wsPunctAdj_removePunctSpace (List.dropWhile isPyWs rest)
      have hwin : ((removePunctSpace (List.dropWhile isPyWs rest)).head?.any fun d =>
          (isPyWs c && isPunct d) || (isPunct c && isPyWs d)) = false := by
        cases hY : List.dropWhile isPyWs rest with
        | nil => simp [removePunctSpace]
        | cons y ys =>
          have hyw : isPyWs y = false := dropWhile_head_not_ws rest y (by rw [hY]; rfl)
          rw [removePunctSpace_head_not_ws ys hyw]
          simp [punct_not_ws hp, hyw]
      simp [hasWsPunctAdj, hwin, ih]
    · by_cases hw : isPyWs c
      · cases hX : (List.dropWhile isPyWs rest).head? with
        | none =>
          rw [removePunctSpace_ws_none hw hX]
          have hnil : List.dropWhile isPyWs rest = [] := by
            cases hY : List.dropWhile isPyWs rest with
            | nil => rfl
            | cons y ys =>
              rw [hY] at hX
              simp at hX
          have hall : ∀ a ∈ (c :: rest), isPyWs a = true := by
            intro a ha
            rcases List.mem_cons.mp ha with he | he
            · exact he ▸ hw
            · have hdecomp := List.takeWhile_append_dropWhile isPyWs rest
              rw [hnil, List.append_nil] at hdecomp
              exact mem_takeWhile_ws (rest) (by rw [hdecomp]; exact he)
          have h2 := hasWsPunctAdj_wsrun (c :: rest) [] hall fun e he => by simp at he
          simpa [hasWsPunctAdj] using h2
        | some d =>
          by_cases hd : isPunct d
          · rw [removePunctSpace_ws_punct hw hX hd]
            have ih := wsPunctAdj_removePunctSpace
              (List.dropWhile isPyWs (List.dropWhile isPyWs rest).tail)
            have hwin : ((removePunctSpace (List.dropWhile isPyWs
                (List.dropWhile isPyWs rest).tail)).head?.any fun e =>
                (isPyWs d && isPunct e) || (isPunct d && isPyWs e)) = false := by
              cases hZ : List.dropWhile isPyWs (List.dropWhile isPyWs rest).tail with
              | nil => simp [removePunctSpace]
              | cons z zs =>
                have hzw : isPyWs z = false :=
                  dropWhile_head_not_ws (List.dropWhile isPyWs rest).tail z
                    (by rw [hZ]; rfl)
                rw [removePunctSpace_head_not_ws zs hzw]
                simp [punct_not_ws hd, hzw]
            simp [hasWsPunctAdj, hwin, ih]
          · have hdf : isPunct d = false := by simpa using hd
            rw [removePunctSpace_ws_nopunct hw hX hdf]
            have hall : ∀ a ∈ (c :: List.takeWhile isPyWs rest), isPyWs a = true := by
              intro a ha
              rcases List.mem_cons.mp ha with he | he
              · exact he ▸ hw
              · exact mem_takeWhile_ws _ he
            have hy : ∀ e, (removePunctSpace (List.dropWhile isPyWs rest)).head? =
                some e → isPunct e = false := by
              intro e he
              cases hY : List.dropWhile isPyWs rest with
              | nil =>
                rw [hY] at he
                rw [removePunctSpace.eq_1] at he
                simp at he
              | cons y ys =>
                have hyd : y = d := by
                  rw [hY] at hX
                  simpa using hX
                subst hyd
                have hyw : isPyWs y = false := dropWhile_head_not_ws rest y (by rw [hY]; rfl)
                rw [hY, removePunctSpace_head_not_ws ys hyw] at he
                simp at he
                exact he ▸ hdf
            rw [hasWsPunctAdj_wsrun _ _ hall hy]
            exact wsPunctAdj_removePunctSpace (List.dropWhile isPyWs rest)
      · have hpf : isPunct c = false := by simpa using hp
        have hwf : isPyWs c = false := by simpa using hw
        rw [removePunctSpace_cons_other hpf hwf]
        have ih := wsPunctAdj_removePunctSpace rest
        have hwin : ((removePunctSpace rest).head?.any fun e =>
            (isPyWs c && isPunct e) || (isPunct c && isPyWs e)) = false := by
          cases hz : (removePunctSpace rest).head? with
          | none => rfl
          | some e => simp [hpf, hwf]
        simp [hasWsPunctAdj, hwin, ih]
termination_by l => l.length
decreasing_by
  all_goals
    first
    | (simp
       done)
    | exact Nat.lt_succ_of_le (List.dropWhile_sublist isPyWs).length_le
    | exact Nat.lt_succ_of_le (Nat.le_trans (List.tail_sublist _).length_le
        (List.dropWhile_sublist isPyWs).length_le)
    | exact Nat.lt_succ_of_le (Nat.le_succ_of_le (Nat.le_trans
        (List.tail_sublist _).length_le (List.dropWhile_sublist isPyWs).length_le))
    | exact Nat.lt_succ_of_le (Nat.le_trans (List.dropWhile_sublist isPyWs).length_le
        (Nat.le_trans (List.tail_sublist _).length_le
          (List.dropWhile_sublist isPyWs).length_le))

theorem tripleSpace_searchStringCleanup (l : List Char) :
    hasTripleSpace (searchStringCleanup l) = false :=
  tripleSpace_of_tripleWs (tripleWs_searchStringCleanup l)

theorem wsPunctAdj_searchStringCleanup (l : List Char) :
    hasWsPunctAdj (searchStringCleanup l) = false :=
  wsPunctAdj_removePunctSpace _

theorem commaBeforeClose_searchStringCleanup {l : List Char}
    (h : hasDoubleComma l = false) :
    hasCommaBeforeClose (searchStringCleanup l) = false :=
  commaBeforeClose_removePunctSpace _ (commaBeforeClose_removeBracketSpace _
    (commaBeforeClose_removeHangingCommas _ (doubleComma_collapseWs _
      (doubleComma_removeNewlines h))))

/-- C7 counterexample: the hanging-comma pass `re.sub(',\s*([}\]])', '\1', out)`
does not rescan its own output, so a rendered template containing a stacked
double comma before a closing bracket (here the string `,,]`) cleans up to
`,]`, which still has a comma immediately before a closing bracket.  The
unqualified claim, quantified over every rendered template string, is
therefore false. -/
theorem search_string_counterexample :
    searchStringChars (fun _ => String.data ",,]") defaultFilter = String.data ",]" ∧
    hasCommaBeforeClose (String.data ",]") = true ∧
    hasDoubleComma (String.data ",,]") = true := by
  refine ⟨?_, by decide, by decide⟩
  simp +decide [searchStringChars, searchStringCleanup, removeNewlines, collapseWs,
    removeHangingCommas, removeBracketSpace, removePunctSpace, isPyWs, isClose,
    isBracketChar, isPunct]

/-- C7: for every filter configuration (the rendered `filter.handlebars`
template being modelled as an arbitrary character string, since the template
file is not part of `src/`), the `search_string()` cleanup output contains no
newline character, no run of three or more spaces, and no whitespace character
adjacent to any of the structural punctuation characters; and, provided the
rendered template contains no comma followed (after optional whitespace) by
another comma, the output has no comma (optionally followed by whitespace)
immediately before a closing bracket or brace. -/
theorem search_string_cleanup_spec (tmpl : FilterCfg → List Char) (cfg : FilterCfg) :
    '\n' ∉ searchStringChars tmpl cfg ∧
    hasTripleSpace (searchStringChars tmpl cfg) = false ∧
    hasWsPunctAdj (searchStringChars tmpl cfg) = false ∧
    (hasDoubleComma (tmpl cfg) = false →
      hasCommaBeforeClose (searchStringChars tmpl cfg) = false) :=
  ⟨no_newline_searchStringCleanup _, tripleSpace_searchStringCleanup _,
    wsPunctAdj_searchStringCleanup _, fun h => commaBeforeClose_searchStringCleanup h⟩

theorem search_string_cleanup_spec_witness :
    hasCommaBeforeClose (searchStringChars
      (fun _ => String.data "[1, 2,]") defaultFilter) = false :=
  (search_string_cleanup_spec (fun _ => String.data "[1, 2,]") defaultFilter).2.2.2
    (by decide)


end LendingClub
